import Mathlib

/-!
Verification development for the sippet SIP stack.

The first part is a shallow embedding of the message layer
(`sippet/message/message.cc`): the canonical raw-headers buffer, the
normalizing parser and the parsed header index, together with the mutation
operations (`AddHeader`, `RemoveHeader`, `RemoveHeaderLine`,
`ReplaceStartLine`, `SetViaReceived`).

Strings are modelled as `List Char`; the embedded `'\0'` sentinels of the
canonical form are ordinary characters of the list.  `std::string`
iterators in the parsed index become `Nat` offsets into the raw-headers
buffer.  Machine integers that can only hold small values here (response
codes, version digits) are modelled as `Nat`/`Int`.
-/

namespace Sippet

abbrev Chars := List Char

/-- The null sentinel of the canonical raw-headers form. -/
def nul : Char := Char.ofNat 0

/-- ASCII lower-casing of one character (`base::ToLowerASCII`). -/
def lowerChar (c : Char) : Char :=
  if 'A' ≤ c ∧ c ≤ 'Z' then Char.ofNat (c.toNat + 32) else c

/-- ASCII upper-casing of one character (`base::ToUpperASCII`). -/
def upperChar (c : Char) : Char :=
  if 'a' ≤ c ∧ c ≤ 'z' then Char.ofNat (c.toNat - 32) else c

def lowerStr (s : Chars) : Chars := s.map lowerChar

def upperStr (s : Chars) : Chars := s.map upperChar

/-- Case-insensitive ASCII equality (`base::EqualsCaseInsensitiveASCII`). -/
def eqCI (a b : Chars) : Bool := lowerStr a == lowerStr b

/-- `base::IsAsciiDigit`. -/
def isDigitChar (c : Char) : Bool := 48 ≤ c.toNat && c.toNat ≤ 57

/-- Linear whitespace as used by the header iterator (`SP` and `HT`). -/
def isSpTab (c : Char) : Bool := c == ' ' || c == '\t'

/-- `sliceStr s a b` is the substring `[a, b)` of `s` (iterator range). -/
def sliceStr (s : Chars) (a b : Nat) : Chars := (s.drop a).take (b - a)

/-- Number of leading whitespace characters. -/
def leadWS (s : Chars) : Nat := (s.takeWhile isSpTab).length

/-- Number of trailing whitespace characters. -/
def tailWS (s : Chars) : Nat := (s.reverse.takeWhile isSpTab).length

/-- Index of the first character satisfying `p` (`std::find`). -/
def findChIdx (p : Char → Bool) : Chars → Option Nat
  | [] => none
  | c :: t => if p c then some 0 else (findChIdx p t).map (· + 1)

/-- Does `s` start with `pre` (byte-exact)? (`base::StartsWith`, sensitive). -/
def startsWithStr (pre s : Chars) : Bool := s.take pre.length == pre

/-- Split a buffer at every null sentinel (the `HeadersIterator` line split). -/
def splitNul : Chars → List Chars
  | [] => [[]]
  | c :: t =>
    if c == nul then [] :: splitNul t
    else
      match splitNul t with
      | [] => [[c]]
      | s :: ss => (c :: s) :: ss

/-- Join segments, terminating each with a null sentinel. -/
def joinLines : List Chars → Chars
  | [] => []
  | l :: t => l ++ nul :: joinLines t

/-- Modelled from the spec: the compact-header expansion table
(`SipUtil::ExpandHeader`; `sippet/message/sip_util.cc` and
`header_list.h` are not part of the provided sources).  Single-letter
names expand to the standard SIP long forms (spec §4.1 step 7 and
scenario 3: `m` → `Contact`). -/
def ExpandHeader (c : Char) : Option Chars :=
  if c == 'v' then some "Via".data
  else if c == 'f' then some "From".data
  else if c == 't' then some "To".data
  else if c == 'm' then some "Contact".data
  else if c == 'i' then some "Call-ID".data
  else if c == 'l' then some "Content-Length".data
  else if c == 'c' then some "Content-Type".data
  else if c == 'e' then some "Content-Encoding".data
  else if c == 's' then some "Subject".data
  else if c == 'k' then some "Supported".data
  else if c == 'o' then some "Event".data
  else if c == 'r' then some "Refer-To".data
  else if c == 'u' then some "Allow-Events".data
  else none

/-- Modelled from the spec: `SipUtil::IsContactLikeHeader` (source file
absent).  Per the spec glossary the contact-like headers are Contact,
From, To, Route, Record-Route and Reply-To; `NormalizeHeaders` in
`message.cc` handles `Contact` through its own separate branch, so the
predicate itself covers the remaining five. -/
def IsContactLikeHeader (name : Chars) : Bool :=
  let n := lowerStr name
  n == "from".data || n == "to".data || n == "route".data ||
  n == "record-route".data || n == "reply-to".data

/-- Modelled from the spec: `SipUtil::IsNonCoalescingHeader` (source file
absent).  The spec glossary names WWW-Authenticate and Proxy-Authenticate
as the non-coalescing headers. -/
def IsNonCoalescingHeader (name : Chars) : Bool :=
  let n := lowerStr name
  n == "www-authenticate".data || n == "proxy-authenticate".data

/-! ### String tokenizer (`base::StringTokenizer`)

Used by `NormalizeContactLikeHeader` with delimiters `"; ,"`, quote
character `"`, and `RETURN_DELIMS`.  Inside a quoted section a backslash
escapes the next character and delimiters do not split. -/

inductive STok where
  | delim (c : Char)
  | word (w : Chars)
deriving Repr, DecidableEq

/-- One-pass tokenizer.  `acc` is the current token in reverse, `q` the
open quote character, `esc` the pending-escape flag. -/
def tokenizeQAux (delims quotes : Chars) :
    Chars → Chars → Option Char → Bool → List STok
  | [], acc, _, _ => if acc.isEmpty then [] else [.word acc.reverse]
  | c :: t, acc, some q, esc =>
    if esc then tokenizeQAux delims quotes t (c :: acc) (some q) false
    else if c == '\\' then tokenizeQAux delims quotes t (c :: acc) (some q) true
    else if c == q then tokenizeQAux delims quotes t (c :: acc) none false
    else tokenizeQAux delims quotes t (c :: acc) (some q) false
  | c :: t, acc, none, _ =>
    if delims.contains c then
      (if acc.isEmpty then [] else [.word acc.reverse]) ++
        .delim c :: tokenizeQAux delims quotes t [] none false
    else if quotes.contains c then
      tokenizeQAux delims quotes t (c :: acc) (some c) false
    else tokenizeQAux delims quotes t (c :: acc) none false

def tokenizeQ (delims quotes s : Chars) : List STok :=
  tokenizeQAux delims quotes s [] none false

/-! ### Comma splitting for coalescing headers (`SipUtil::ValuesIterator`)

Modelled from the spec (§4.1 step 9: "if the header is coalescing and its
value contains unquoted commas, split into successive entries"; the
`sip_util` source is absent).  Like its `HttpUtil` counterpart it splits
on commas outside quoted sections, trims whitespace from every piece and
skips pieces that become empty.  Pieces are `(begin, end)` offsets. -/

def apostrophe : Char := Char.ofNat 39

/-- Raw comma-separated spans of `v` (offsets relative to `v`); `i` is the
current index, `st` the start of the current piece. -/
def commaScan : Chars → Nat → Nat → Option Char → Bool → List (Nat × Nat)
  | [], i, st, _, _ => [(st, i)]
  | c :: t, i, st, some q, esc =>
    if esc then commaScan t (i + 1) st (some q) false
    else if c == '\\' then commaScan t (i + 1) st (some q) true
    else if c == q then commaScan t (i + 1) st none false
    else commaScan t (i + 1) st (some q) false
  | c :: t, i, st, none, _ =>
    if c == ',' then (st, i) :: commaScan t (i + 1) (i + 1) none false
    else if c == '"' || c == apostrophe then commaScan t (i + 1) st (some c) false
    else commaScan t (i + 1) st none false

/-- Trim a piece of `v` and drop it when it becomes empty. -/
def trimPiece (v : Chars) (p : Nat × Nat) : Option (Nat × Nat) :=
  if p.1 + leadWS (sliceStr v p.1 p.2) < p.2 - tailWS (sliceStr v p.1 p.2) then
    some (p.1 + leadWS (sliceStr v p.1 p.2), p.2 - tailWS (sliceStr v p.1 p.2))
  else none

def piecesOf (v : Chars) : List (Nat × Nat) :=
  (commaScan v 0 0 none false).filterMap (trimPiece v)

/-! ### Header line splitting (`SipUtil::HeadersIterator`)

Modelled from the spec (§4.1 step 7: "split name and value at the first
colon"; the `sip_util` source is absent).  Mirroring its `HttpUtil`
counterpart: empty lines and lines without a colon are skipped, a line
whose name is empty or starts with whitespace is skipped, the name is
trimmed of trailing whitespace, and the value span is trimmed of leading
and trailing whitespace.  Returns `(name_begin, name_end, value_begin,
value_end)` offsets relative to the segment. -/
def headerIterStep (s : Chars) : Option (Nat × Nat × Nat × Nat) :=
  match findChIdx (· == ':') s with
  | none => none
  | some colon =>
    if colon == 0 then none
    else if isSpTab (s.headD nul) then none
    else
      let ne := colon - tailWS (s.take colon)
      let rest := s.drop (colon + 1)
      let vb := colon + 1 + leadWS rest
      let ve := s.length - tailWS (s.drop vb)
      some (0, ne, vb, ve)

/-- The header name of a segment (empty when the segment is skipped). -/
def nameOfSeg (s : Chars) : Chars :=
  match headerIterStep s with
  | some (nb, ne, _, _) => sliceStr s nb ne
  | none => []

/-- The (trimmed) header value of a segment. -/
def valueOfSeg (s : Chars) : Chars :=
  match headerIterStep s with
  | some (_, _, vb, ve) => sliceStr s vb ve
  | none => []

/-! ### `Message::NormalizeContactLikeHeader` -/

/-- The state machine of `Message::NormalizeContactLikeHeader`, folded over
the token stream.  State: `nip` = next_is_param, `hqs` = had_quoted_string,
`had` = had_address, `htok` = had_token; `acc` is the output appended so
far.  On a structural error the function returns `false` together with the
partial output (the C++ streams into `raw_headers_` and returns early). -/
def nclhRun : List STok → Bool → Bool → Bool → Bool → Chars → Bool × Chars
  | [], _, _, _, _, acc => (true, acc)
  | .delim c :: ts, nip, hqs, had, htok, acc =>
    if c == ';' then nclhRun ts true hqs had htok acc
    else if c == ',' then nclhRun ts false false false false (acc ++ [',', ' '])
    else nclhRun ts nip hqs had htok acc
  | .word w :: ts, nip, hqs, had, htok, acc =>
    if nip then nclhRun ts nip hqs had htok (acc ++ ';' :: w)
    else if w.headD ' ' == '"' then
      if hqs then (false, acc)
      else nclhRun ts nip true had htok
        (acc ++ if w.getD 1 ' ' == '"' then [] else w)
    else if w.headD ' ' == '<' then
      if had then (false, acc)
      else
        let pre : Chars := if htok then ['"', ' '] else if hqs then [' '] else []
        nclhRun ts nip hqs true htok (acc ++ pre ++ w)
    else
      if hqs || had then (false, acc)
      else if startsWithStr "sip:".data w || startsWithStr "sips:".data w then
        nclhRun ts nip hqs true htok (acc ++ '<' :: w ++ ['>'])
      else nclhRun ts nip hqs had true
        (acc ++ (if htok then [' '] else ['"']) ++ w)

def NormalizeContactLikeHeader (value : Chars) : Bool × Chars :=
  nclhRun (tokenizeQ [';', ' ', ','] ['"'] value) false false false false []

/-! ### `Message::NormalizeHeaders` -/

/-- Compact single-letter names are expanded to the long form. -/
def expandName (name : Chars) : Chars :=
  if name.length == 1 then (ExpandHeader (lowerChar (name.headD ' '))).getD name
  else name

/-- Emit `hname ++ ": " ++ normalized value` followed by a null, for an
already-expanded header name.  On a contact-like normalization failure
the partial output (without the trailing null) is returned with
`false`. -/
def normalizeLineCore (hname value : Chars) : Bool × Chars :=
  if IsContactLikeHeader hname then
    match NormalizeContactLikeHeader value with
    | (true, out) => (true, hname ++ [':', ' '] ++ out ++ [nul])
    | (false, out) => (false, hname ++ [':', ' '] ++ out)
  else if lowerStr hname == "contact".data then
    if value == ['*'] then (true, hname ++ [':', ' '] ++ ['*'] ++ [nul])
    else
      match NormalizeContactLikeHeader value with
      | (true, out) => (true, hname ++ [':', ' '] ++ out ++ [nul])
      | (false, out) => (false, hname ++ [':', ' '] ++ out)
  else (true, hname ++ [':', ' '] ++ value ++ [nul])

/-- Normalize one header line given its (already split) name and value. -/
def normalizeLine (name value : Chars) : Bool × Chars :=
  normalizeLineCore (expandName name) value

/-- Normalization of one raw segment; segments the header iterator skips
contribute nothing. -/
def normSeg (s : Chars) : Bool × Chars :=
  match headerIterStep s with
  | none => (true, [])
  | some (nb, ne, vb, ve) => normalizeLine (sliceStr s nb ne) (sliceStr s vb ve)

def normLoop : List Chars → Bool × Chars
  | [] => (true, [])
  | s :: rest =>
    match normSeg s with
    | (true, out) =>
      match normLoop rest with
      | (b, out2) => (b, out ++ out2)
    | (false, out) => (false, out)

/-- `Message::NormalizeHeaders`: normalize every segment and close the
buffer with the second null (only on success, as in the source). -/
def NormalizeHeaders (segs : List Chars) : Bool × Chars :=
  match normLoop segs with
  | (true, o) => (true, o ++ [nul])
  | (false, o) => (false, o)

/-! ### The parsed header index (`Message::AddHeader` iterator overload,
`Message::AddToParsed`) -/

/-- One entry of the parsed index.  Iterators into `raw_headers_` are
modelled as offsets. -/
structure ParsedHeader where
  name_begin : Nat
  name_end : Nat
  value_begin : Nat
  value_end : Nat
deriving Repr, DecidableEq

/-- A header "continuation" contains only a subsequent value for the
preceding header (name span empty). -/
def ParsedHeader.is_continuation (h : ParsedHeader) : Bool :=
  h.name_begin == h.name_end

/-- The block of entries one segment contributes, relative to the segment:
the top-level spans plus the value spans of the continuation entries.
Mirrors the iterator overload of `Message::AddHeader`: an empty value or a
non-coalescing name yields a single entry, otherwise the value is split at
unquoted commas and the second and later pieces become continuations. -/
def blockOf (s : Chars) : Option ((Nat × Nat × Nat × Nat) × List (Nat × Nat)) :=
  match headerIterStep s with
  | none => none
  | some (nb, ne, vb, ve) =>
    if vb == ve || IsNonCoalescingHeader (sliceStr s nb ne) then
      some ((nb, ne, vb, ve), [])
    else
      match piecesOf (sliceStr s vb ve) with
      | [] => none
      | (a, b) :: rest =>
        some ((nb, ne, vb + a, vb + b), rest.map (fun p => (vb + p.1, vb + p.2)))

/-- Absolute index entries of a segment at buffer offset `off`; `L` is the
final buffer length (continuation entries point their empty name span at
`raw_headers_.end()`). -/
def indexLine (L off : Nat) (s : Chars) : List ParsedHeader :=
  match blockOf s with
  | none => []
  | some ((nb, ne, vb, ve), conts) =>
    ⟨off + nb, off + ne, off + vb, off + ve⟩ ::
      conts.map (fun p => ⟨L, L, off + p.1, off + p.2⟩)

def indexSegs (L off : Nat) : List Chars → List ParsedHeader
  | [] => []
  | s :: rest => indexLine L off s ++ indexSegs L (off + s.length + 1) rest

/-! ### The `Message` object -/

/-- `sippet::Message`.  `sip_version` is `none` until a 2.0 start line has
been accepted. -/
structure Message where
  raw_headers : Chars
  parsed : List ParsedHeader
  request_method : Chars
  request_uri : Chars
  response_code : Int
  sip_version : Option (Nat × Nat)
deriving Repr, DecidableEq

/-- A freshly constructed message (`Message::Message`). -/
def freshMessage : Message :=
  { raw_headers := [], parsed := [], request_method := [], request_uri := [],
    response_code := -1, sip_version := none }

/-- `raw_headers_.clear(); parsed_.clear();` before a re-parse. -/
def clearHdrs (m : Message) : Message :=
  { m with raw_headers := [], parsed := [] }

/-- `Message::GetStartLine`: copy up to the first null byte. -/
def Message.GetStartLine (m : Message) : Chars :=
  m.raw_headers.takeWhile (· ≠ nul)

/-! ### Start-line parsing -/

/-- `Message::ParseVersion`.  Returns the `(major, minor)` pair; the C++
returns a default `SipVersion()` (here `(0, 0)`) on failure.  Note the
source checks only the first character after `/` and the character right
after the first `.`; it never looks at what follows either digit. -/
def Message.ParseVersion (line : Chars) : Nat × Nat :=
  if lowerStr (line.take 3) == "sip".data then
    match line.get? 3 with
    | some c =>
      if c == '/' then
        match findChIdx (· == '.') (line.drop 3) with
        | none => (0, 0)
        | some d =>
          match line.get? 4, line.get? (3 + d + 1) with
          | some pc, some qc =>
            if isDigitChar pc && isDigitChar qc then
              (pc.toNat - 48, qc.toNat - 48)
            else (0, 0)
          | _, _ => (0, 0)
      else (0, 0)
    | none => (0, 0)
  else (0, 0)

/-- Digits of a natural number (for rebuilding the status code is not
needed — the code copies the original digit characters — but the numeric
value is stored in `response_code_`). -/
def digitsVal : Chars → Nat
  | [] => 0
  | c :: t => digitsVal t + (c.toNat - 48) * 10 ^ t.length

/-- The version step of `Message::ParseRequestLine`.  `r2` is the rest of
the line after the request URI and the following spaces. -/
def parseRequestVersion (m : Message) (r2 : Chars) : Bool × Message :=
  if Message.ParseVersion r2 == (2, 0) then
    (true, { m with sip_version := some (2, 0),
                    raw_headers := m.raw_headers ++ " SIP/2.0".data })
  else (false, m)

/-- The URI step of `Message::ParseRequestLine`.  `r1` is the rest of the
line after the method and the following spaces. -/
def parseRequestUri (m : Message) (r1 : Chars) : Bool × Message :=
  match findChIdx (· == ' ') r1 with
  | none => (false, m)
  | some p1 =>
    parseRequestVersion
      { m with request_uri := r1.take p1,
               raw_headers := m.raw_headers ++ ' ' :: r1.take p1 }
      ((r1.drop p1).dropWhile (· == ' '))

/-- `Message::ParseRequestLine`, state-passing.  The `GURL` request-URI is
modelled from the spec as the verbatim URI text (`GURL` is not part of the
provided sources; spec §4.1 scenario 2 shows `sip:a@b` serialized
unchanged), so `request_uri_.spec()` is the text itself. -/
def parseRequestLineSt (m : Message) (line : Chars) : Bool × Message :=
  match findChIdx (· == ' ') line with
  | none => (false, m)
  | some p0 =>
    parseRequestUri
      { m with request_method := upperStr (line.take p0),
               raw_headers := upperStr (line.take p0) }
      ((line.drop p0).dropWhile (· == ' '))

/-- Trailing-space trimming of the status text (the source trims `' '`
only). -/
def trimTrailSpaces (s : Chars) : Chars :=
  (s.reverse.dropWhile (· == ' ')).reverse

/-- The range check and reason-phrase step of `Message::ParseStatusLine`.
`m` already carries the code digits and `response_code_`; `r2mid` is the
rest of the line after the digits. -/
def parseStatusTail (m : Message) (r2mid : Chars) : Bool × Message :=
  if m.response_code < 100 ∨ m.response_code > 699 then (false, m)
  else
    if (trimTrailSpaces (r2mid.dropWhile (· == ' '))).isEmpty then (true, m)
    else
      (true, { m with raw_headers :=
        m.raw_headers ++ ' ' :: trimTrailSpaces (r2mid.dropWhile (· == ' ')) })

/-- The status-code step of `Message::ParseStatusLine`.  `r1` is the rest
of the line after the first space and the following spaces. -/
def parseStatusRest (m : Message) (r1 : Chars) : Bool × Message :=
  if (r1.takeWhile isDigitChar).isEmpty then (false, m)
  else
    parseStatusTail
      { m with raw_headers := m.raw_headers ++ ' ' :: r1.takeWhile isDigitChar,
               response_code := (digitsVal (r1.takeWhile isDigitChar) : Int) }
      (r1.drop (r1.takeWhile isDigitChar).length)

/-- `Message::ParseStatusLine`, state-passing. -/
def parseStatusLineSt (m : Message) (line : Chars) : Bool × Message :=
  if Message.ParseVersion line == (2, 0) then
    match findChIdx (· == ' ') line with
    | none =>
      (false, { m with sip_version := some (2, 0),
                       raw_headers := "SIP/2.0".data })
    | some p0 =>
      parseStatusRest
        { m with sip_version := some (2, 0), raw_headers := "SIP/2.0".data }
        ((line.drop p0).dropWhile (· == ' '))
  else (false, m)

/-- `Message::ParseStartLine`: a line whose first four characters are
`sip/` (case-insensitively) is a status line, anything else a request
line. -/
def parseStartLineSt (m : Message) (line : Chars) : Bool × Message :=
  if line.length > 4 && lowerStr (line.take 4) == "sip/".data then
    parseStatusLineSt m line
  else parseRequestLineSt m line

/-! ### `Message::ParseInternal` -/

/-- The header phase of `Message::ParseInternal`: normalize the
null-separated segments of `rest` into the raw buffer and, on success,
build the parsed index over the normalized bytes.  `m2` holds the
null-terminated start line. -/
def parseHeadersInto (m2 : Message) (rest : Chars) : Bool × Message :=
  match NormalizeHeaders (splitNul rest) with
  | (false, body) => (false, { m2 with raw_headers := m2.raw_headers ++ body })
  | (true, body) =>
    (true, { m2 with
      raw_headers := m2.raw_headers ++ body,
      parsed := indexSegs (m2.raw_headers ++ body).length m2.raw_headers.length
                  (splitNul body) })

/-- `Message::ParseInternal`, state-passing.  The caller has cleared
`raw_headers_` and `parsed_`; on failure the partially rebuilt state is
returned, exactly as the source leaves it. -/
def parseInternalSt (m : Message) (input : Chars) : Bool × Message :=
  match parseStartLineSt m (input.takeWhile (· ≠ nul)) with
  | (false, m1) => (false, m1)
  | (true, m1) =>
    if input.length == (input.takeWhile (· ≠ nul)).length then
      (true, { m1 with raw_headers := m1.raw_headers ++ [nul] ++ [nul] })
    else
      parseHeadersInto { m1 with raw_headers := m1.raw_headers ++ [nul] }
        (input.drop ((input.takeWhile (· ≠ nul)).length + 1))

/-- `Message::Parse`. -/
def Message.Parse (raw_input : Chars) : Option Message :=
  match parseInternalSt freshMessage raw_input with
  | (true, m) => some m
  | (false, _) => none

/-! ### Header groups (`EnumerateHeaderLines`, `MergeWithMessage`) -/

/-- Group the parsed index into `(first, last)` pairs, where a group is a
top-level entry together with its run of continuation entries. -/
def groupsAux : List ParsedHeader → ParsedHeader × ParsedHeader →
    List (ParsedHeader × ParsedHeader)
  | [], cur => [cur]
  | e :: t, (f, l) =>
    if e.is_continuation then groupsAux t (f, e)
    else (f, l) :: groupsAux t (e, e)

def groupsOfParsed : List ParsedHeader → List (ParsedHeader × ParsedHeader)
  | [] => []
  | e :: t => groupsAux t (e, e)

/-- The logical header lines: `(name, coalesced value)` per group, where
the value spans from the first entry's `value_begin` to the last
continuation's `value_end` (raw bytes, commas included).  This is
`Message::EnumerateHeaderLines` run to exhaustion. -/
def enumLines (raw : Chars) (parsed : List ParsedHeader) : List (Chars × Chars) :=
  (groupsOfParsed parsed).map fun (f, l) =>
    (sliceStr raw f.name_begin f.name_end, sliceStr raw f.value_begin l.value_end)

/-- The kept header bytes of `Message::MergeWithMessage`: every group whose
lower-cased name is not in `toRemove` is copied verbatim
(`[name_begin, value_end)` of the group) and null-terminated. -/
def mergeBytes (raw : Chars) (toRemove : List Chars) :
    List (ParsedHeader × ParsedHeader) → Chars
  | [] => []
  | (f, l) :: t =>
    (if toRemove.contains (lowerStr (sliceStr raw f.name_begin f.name_end)) then []
     else sliceStr raw f.name_begin l.value_end ++ [nul]) ++
      mergeBytes raw toRemove t

/-- `Message::MergeWithMessage`: append the kept headers to `base`, close
with a null, and re-parse into the cleared object. -/
def mergeWithMessage (m : Message) (base : Chars) (toRemove : List Chars) : Message :=
  (parseInternalSt (clearHdrs m)
    (base ++ mergeBytes m.raw_headers toRemove (groupsOfParsed m.parsed) ++ [nul])).2

/-! ### The mutation operations -/

/-- `Message::AddHeader(header)`: copy the raw headers without the final
null, append the new header and two nulls, and re-parse.  The C++
`CHECK`s that `header` has no embedded nulls; behaviour is only
meaningful for null-free input. -/
def Message.AddHeader (m : Message) (header : Chars) : Message :=
  (parseInternalSt (clearHdrs m)
    (m.raw_headers.dropLast ++ header ++ [nul, nul])).2

/-- `Message::RemoveHeader(name)`. -/
def Message.RemoveHeader (m : Message) (name : Chars) : Message :=
  mergeWithMessage m (m.GetStartLine ++ [nul]) [lowerStr name]

/-- `Message::ReplaceStartLine(new_start)`. -/
def Message.ReplaceStartLine (m : Message) (new_start : Chars) : Message :=
  mergeWithMessage m (new_start ++ [nul]) []

/-- The rebuilt body of `Message::RemoveHeaderLine`: every enumerated line
except exact `(name, value)` matches (name compared lower-cased, value
byte-exact) is re-emitted as `name ++ ": " ++ value` plus a null. -/
def rhlBuild (nameLc value : Chars) : List (Chars × Chars) → Chars
  | [] => []
  | (n, v) :: t =>
    (if lowerStr n == nameLc && v == value then []
     else n ++ ':' :: ' ' :: v ++ [nul]) ++ rhlBuild nameLc value t

/-- `Message::RemoveHeaderLine(name, value)`. -/
def Message.RemoveHeaderLine (m : Message) (name value : Chars) : Message :=
  (parseInternalSt (clearHdrs m)
    (m.GetStartLine ++ nul ::
      rhlBuild (lowerStr name) value (enumLines m.raw_headers m.parsed) ++
      [nul])).2

/-- The rebuilt body of `Message::SetViaReceived`: the first line whose
name is `via` (case-insensitively) gets `";received=" ++ received`
appended to its coalesced value; every line is re-emitted as
`name ++ ": " ++ value` plus a null. -/
def svrBuild (received : Chars) : List (Chars × Chars) → Bool → Chars
  | [], _ => []
  | (n, v) :: t, isFirst =>
    if eqCI n "via".data && isFirst then
      (n ++ ':' :: ' ' :: (v ++ ";received=".data ++ received)) ++
        nul :: svrBuild received t false
    else (n ++ ':' :: ' ' :: v) ++ nul :: svrBuild received t isFirst

/-- `Message::SetViaReceived(received)`. -/
def Message.SetViaReceived (m : Message) (received : Chars) : Message :=
  (parseInternalSt (clearHdrs m)
    (m.GetStartLine ++ nul ::
      svrBuild received (enumLines m.raw_headers m.parsed) true ++ [nul])).2

/-- `Message::FindHeader`/`EnumerateHeader` value enumeration: the value
spans of every entry belonging to a header with the given name
(case-insensitive), in index order. -/
def enumHeaderValuesAux (raw : Chars) (name : Chars) :
    List ParsedHeader → Bool → List Chars
  | [], _ => []
  | e :: t, inHdr =>
    if e.is_continuation then
      if inHdr then sliceStr raw e.value_begin e.value_end ::
        enumHeaderValuesAux raw name t true
      else enumHeaderValuesAux raw name t false
    else if eqCI (sliceStr raw e.name_begin e.name_end) name then
      sliceStr raw e.value_begin e.value_end :: enumHeaderValuesAux raw name t true
    else enumHeaderValuesAux raw name t false

def enumHeaderValues (m : Message) (name : Chars) : List Chars :=
  enumHeaderValuesAux m.raw_headers name m.parsed false

/-- The serialized canonical form of a message is its raw-headers buffer
(spec §6: the canonical internal format). -/
def serialize (m : Message) : Chars := m.raw_headers

/-!
## Network layer (`sippet/transport/network_layer.cc`)

The typed header classes (`via.h`, `cseq.h`), `EndPoint`, the channels and
the transaction implementations are not part of the provided sources; the
message attributes the network layer reads are modelled as record fields,
and endpoints as an abstract type.
-/

/-- The decoded topmost Via entry as the network layer reads it:
`via->front().sent_by().ToString()` and the optional `branch` parameter
(`HasBranch`/`branch`). -/
structure ViaFront where
  sentBy : Chars
  branch : Option Chars
deriving Repr, DecidableEq

/-- The CSeq header: sequence number and method. -/
structure CseqInfo where
  sequence : Nat
  method : Chars
deriving Repr, DecidableEq

/-- The attributes of a request that `NetworkLayer::ServerTransactionId`
reads.  `topVia` is `front()` of the first Via header when one exists;
`toTag`/`fromTag` are the optional tags (`HasTag`/`tag`). -/
structure RequestId where
  method : Chars
  topVia : Option ViaFront
  toTag : Option Chars
  fromTag : Option Chars
  callId : Chars
  cseq : CseqInfo
deriving Repr, DecidableEq

/-- The attributes of a response that `NetworkLayer::ServerTransactionId`
reads, plus the status code (to state which responses are non-2xx
final). -/
structure ResponseId where
  statusCode : Nat
  topVia : Option ViaFront
  toTag : Option Chars
  fromTag : Option Chars
  callId : Chars
  cseq : CseqInfo
deriving Repr, DecidableEq

/-- The RFC 3261 magic cookie prefix of compliant branches. -/
def kMagicCookie : Chars := "z9hG4bK".data

/-- ACK is folded into INVITE for transaction matching. -/
def foldMethod (m : Chars) : Chars :=
  if m == "ACK".data then "INVITE".data else m

def branchHasCookie : Option Chars → Bool
  | some b => startsWithStr kMagicCookie b
  | none => false

/-- `base::IntToString` of the CSeq sequence. -/
def natChars (n : Nat) : Chars := (Nat.repr n).data

def optChars : Option Chars → Chars
  | some s => s
  | none => []

/-- The common RFC 2543 fallback tail: To tag, From tag, Call-ID, CSeq
sequence, folded method, then `sent_by ++ ":" ++ branch` when a topmost
Via exists. -/
def fallbackId (toTag fromTag : Option Chars) (callId : Chars) (seq : Nat)
    (method : Chars) (topVia : Option ViaFront) : Chars :=
  "s:".data ++ optChars toTag ++ ":".data ++ optChars fromTag ++ ":".data ++
    callId ++ ":".data ++ natChars seq ++ ":".data ++ foldMethod method ++
    ":".data ++
    (match topVia with
     | some v => v.sentBy ++ ":".data ++ optChars v.branch
     | none => [])

/-- `NetworkLayer::ServerTransactionId(Request)`. -/
def ServerTransactionIdReq (r : RequestId) : Chars :=
  match r.topVia with
  | some v =>
    if branchHasCookie v.branch then
      "s:".data ++ optChars v.branch ++ ":".data ++ v.sentBy ++ ":".data ++
        foldMethod r.method
    else fallbackId r.toTag r.fromTag r.callId r.cseq.sequence r.method (some v)
  | none => fallbackId r.toTag r.fromTag r.callId r.cseq.sequence r.method none

/-- `NetworkLayer::ServerTransactionId(Response)`.  On the compliant
branch the method is taken from CSeq without folding; on the fallback
path it is folded as for requests. -/
def ServerTransactionIdResp (p : ResponseId) : Chars :=
  match p.topVia with
  | some v =>
    if branchHasCookie v.branch then
      "s:".data ++ optChars v.branch ++ ":".data ++ v.sentBy ++ ":".data ++
        p.cseq.method
    else fallbackId p.toTag p.fromTag p.callId p.cseq.sequence p.cseq.method
      (some v)
  | none =>
    fallbackId p.toTag p.fromTag p.callId p.cseq.sequence p.cseq.method none

/-- Modelled from the spec: the ACK that the client INVITE transaction
sends for a non-2xx final response (the client-transaction implementation
is not part of the provided sources).  Per spec §4.4.2 it reuses the
original INVITE's topmost Via (same branch); per RFC 3261 §17.1.1.3 its
To header (tag included) is copied from the response and its CSeq keeps
the INVITE sequence with method ACK. -/
def IsAckFor (a r : RequestId) (f : ResponseId) : Prop :=
  a.method = "ACK".data ∧ a.topVia = r.topVia ∧ a.toTag = f.toTag ∧
  a.fromTag = r.fromTag ∧ a.callId = r.callId ∧
  a.cseq = ⟨r.cseq.sequence, "ACK".data⟩

/-- Modelled from the spec: a non-2xx final response of a server to
request `r` (the server-transaction implementation is not part of the
provided sources).  Per RFC 3261 §8.2.6 the response echoes the
request's Via, From, Call-ID and CSeq; the To header keeps the request's
tag when there is one, and the UAS may add one otherwise. -/
def IsFinalNon2xxFor (f : ResponseId) (r : RequestId) : Prop :=
  f.topVia = r.topVia ∧ f.cseq = r.cseq ∧ f.fromTag = r.fromTag ∧
  f.callId = r.callId ∧ 300 ≤ f.statusCode ∧ f.statusCode ≤ 699 ∧
  (f.toTag = r.toTag ∨ r.toTag = none)

/-! ### Channel-context bookkeeping and the send paths

Endpoints are abstracted to `Nat` keys (`EndPoint` is not in the provided
sources; equality is all the network layer's maps need).  Transaction ids
are likewise abstracted to `Nat`.  `ext` is a ghost field counting the
outstanding external holds (`RequestChannel` minus `ReleaseChannel`), used
to state the reference-count invariant. -/

abbrev EP := Nat
abbrev TxId := Nat

/-- `NetworkLayer::ChannelContext`. -/
structure ChannelContext where
  refs : Int
  txs : List TxId
  timerOn : Bool
  connected : Bool
  ext : Int
deriving Repr, DecidableEq

/-- The network-layer state: the `destination → ChannelContext` map and
the two `transaction_id → destination` maps (the transaction objects
themselves are abstracted to the destination of their channel, which is
all `DestroyClientTransaction`/`DestroyServerTransaction` read). -/
structure NLState where
  chans : List (EP × ChannelContext)
  clientTxs : List (TxId × EP)
  serverTxs : List (TxId × EP)
deriving Repr, DecidableEq

def NLState.empty : NLState := ⟨[], [], []⟩

def lookupA {α : Type} (k : Nat) : List (Nat × α) → Option α
  | [] => none
  | (k2, v) :: t => if k == k2 then some v else lookupA k t

def eraseA {α : Type} (k : Nat) : List (Nat × α) → List (Nat × α)
  | [] => []
  | (k2, v) :: t => if k == k2 then eraseA k t else (k2, v) :: eraseA k t

def updateA {α : Type} (k : Nat) (v : α) (l : List (Nat × α)) : List (Nat × α) :=
  (k, v) :: eraseA k l

/-- Update the context at `d` in place (no-op when absent). -/
def mapCtx (d : EP) (f : ChannelContext → ChannelContext) :
    List (EP × ChannelContext) → List (EP × ChannelContext)
  | [] => []
  | (k, c) :: t => if d == k then (k, f c) :: t else (k, c) :: mapCtx d f t

/-- net error codes used by the network layer (from `net/base/net_errors`). -/
def netOK : Int := 0
def netERR_IO_PENDING : Int := -1
def netERR_ABORTED : Int := -3
def netERR_INVALID_ARGUMENT : Int := -4
def netERR_TIMED_OUT : Int := -7
def netERR_SOCKET_NOT_CONNECTED : Int := -15
def netERR_CONNECTION_CLOSED : Int := -100
def netERR_ADDRESS_UNREACHABLE : Int := -109

/-- `NetworkLayer::RequestChannelInternal`: add a use and stop the idle
timer. -/
def requestChannelInternal (c : ChannelContext) : ChannelContext :=
  { c with refs := c.refs + 1, timerOn := false }

/-- `NetworkLayer::ReleaseChannelInternal`: drop a use; when the count
reaches zero, start the reuse-lifetime timer. -/
def releaseChannelInternal (c : ChannelContext) : ChannelContext :=
  { c with refs := c.refs - 1,
           timerOn := if c.refs - 1 == 0 then true else c.timerOn }

/-- `NetworkLayer::RequestChannel` (public): external hold, counted in the
ghost field. -/
def NLState.requestChannel (s : NLState) (d : EP) : NLState :=
  match lookupA d s.chans with
  | none => s
  | some _ =>
    { s with chans := (
        mapCtx d (fun c => { requestChannelInternal c with ext := c.ext + 1 })
          s.chans) }

/-- `NetworkLayer::ReleaseChannel` (public). -/
def NLState.releaseChannel (s : NLState) (d : EP) : NLState :=
  match lookupA d s.chans with
  | none => s
  | some _ =>
    { s with chans := (
        mapCtx d (fun c => { releaseChannelInternal c with ext := c.ext - 1 })
          s.chans) }

/-- `NetworkLayer::CreateChannelContext` (the factory-success branch): a
fresh disconnected context with zero references. -/
def freshCtx : ChannelContext :=
  { refs := 0, txs := [], timerOn := false, connected := false, ext := 0 }

/-- `NetworkLayer::Connect`: no-op (returning OK) when a context exists;
otherwise create one and start the asynchronous connect. -/
def NLState.connect (s : NLState) (d : EP) : Int × NLState :=
  match lookupA d s.chans with
  | some _ => (netOK, s)
  | none => (netERR_IO_PENDING, { s with chans := updateA d freshCtx s.chans })

/-- `OnChannelConnected` success: the channel becomes connected. -/
def NLState.chanConnected (s : NLState) (d : EP) : NLState :=
  { s with chans := mapCtx d (fun c => { c with connected := true }) s.chans }

/-- `NetworkLayer::CreateClientTransaction`: register the transaction in
the global map and the context's set, and take a channel use. -/
def NLState.createClientTx (s : NLState) (d : EP) (t : TxId) : NLState :=
  match lookupA d s.chans with
  | none => s
  | some _ =>
    { s with
      clientTxs := updateA t d s.clientTxs,
      chans := (
        mapCtx d
          (fun c => requestChannelInternal
            { c with txs := if c.txs.contains t then c.txs else t :: c.txs })
          s.chans) }

/-- `NetworkLayer::CreateServerTransaction`. -/
def NLState.createServerTx (s : NLState) (d : EP) (t : TxId) : NLState :=
  match lookupA d s.chans with
  | none => s
  | some _ =>
    { s with
      serverTxs := updateA t d s.serverTxs,
      chans := (
        mapCtx d
          (fun c => requestChannelInternal
            { c with txs := if c.txs.contains t then c.txs else t :: c.txs })
          s.chans) }

/-- `NetworkLayer::DestroyClientTransaction` /
`DestroyServerTransaction`: erase the transaction from the global map;
when a context still exists for its channel's destination, remove it from
the context's set and release the channel use. -/
def destroyTxIn (global : List (TxId × EP)) (chans : List (EP × ChannelContext))
    (t : TxId) : List (TxId × EP) × List (EP × ChannelContext) :=
  match lookupA t global with
  | none => (global, chans)
  | some d =>
    (eraseA t global,
     match lookupA d chans with
     | none => chans
     | some _ =>
       mapCtx d
         (fun c => releaseChannelInternal { c with txs := c.txs.filter (· ≠ t) })
         chans)

/-- `NetworkLayer::OnTransactionTerminated`: client ids start with `c:`,
server ids with `s:`; here the two maps are simply tried in order. -/
def NLState.termTx (s : NLState) (t : TxId) : NLState :=
  match lookupA t s.clientTxs with
  | some _ =>
    let (g, ch) := destroyTxIn s.clientTxs s.chans t
    { s with clientTxs := g, chans := ch }
  | none =>
    let (g, ch) := destroyTxIn s.serverTxs s.chans t
    { s with serverTxs := g, chans := ch }

/-- `NetworkLayer::DestroyChannelContext`: remove the context from the
map first, then cascade `OnTransactionTerminated` over the transactions
still registered with it. -/
def NLState.destroyCtx (s : NLState) (d : EP) : NLState :=
  match lookupA d s.chans with
  | none => s
  | some c => c.txs.foldl NLState.termTx { s with chans := eraseA d s.chans }

/-- `NetworkLayer::OnChannelClosed` (channel-initiated close). -/
def NLState.channelClosed (s : NLState) (d : EP) : NLState :=
  s.destroyCtx d

/-- `NetworkLayer::OnIdleChannelTimedOut`: fires only while the timer is
armed; closes the channel. -/
def NLState.idleTimeout (s : NLState) (d : EP) : NLState :=
  match lookupA d s.chans with
  | some c => if c.timerOn then s.destroyCtx d else s
  | none => s

/-- `NetworkLayer::SendRequest` (dispatched from `NetworkLayer::Send` for
outgoing requests).  `dest` is the endpoint computed by
`GetMessageEndPoint` (`none` models `EndPoint::IsEmpty`), `isAck` whether
the method is ACK, `t` the client-transaction id that would be created,
and `sendRv` the result the channel's `Send` would return. -/
def NLState.sendRequest (s : NLState) (dest : Option EP) (isAck : Bool)
    (t : TxId) (sendRv : Int) : Int × NLState :=
  match dest with
  | none => (netERR_INVALID_ARGUMENT, s)
  | some d =>
    match lookupA d s.chans with
    | some c =>
      if !c.connected then (netERR_SOCKET_NOT_CONNECTED, s)
      else if isAck then (sendRv, s)
      else (sendRv, s.createClientTx d t)
    | none =>
      if isAck then (netERR_ABORTED, s)
      else (netERR_IO_PENDING, { s with chans := updateA d freshCtx s.chans })

/-- `NetworkLayer::SendResponse` (dispatched from `NetworkLayer::Send` for
outgoing responses).  `stxId` is the server-transaction id computed from
the response, `dest` the endpoint derived from the top Via (respecting
`received`/`rport`), `sendRv` the result the channel's `Send` would
return — which the source ignores. -/
def NLState.sendResponse (s : NLState) (stxId : TxId) (dest : Option EP)
    (sendRv : Int) : Int × NLState :=
  match lookupA stxId s.serverTxs with
  | some _ => (netOK, s)
  | none =>
    match dest with
    | none => (netERR_INVALID_ARGUMENT, s)
    | some d =>
      match lookupA d s.chans with
      | none => (netERR_SOCKET_NOT_CONNECTED, s)
      | some _ => (netOK, s)

/-! ### Traces of public operations (for the reference-count invariant) -/

inductive NLOp where
  | connect (d : EP)
  | chanConnected (d : EP)
  | requestChannel (d : EP)
  | releaseChannel (d : EP)
  | sendRequest (dest : Option EP) (isAck : Bool) (t : TxId) (sendRv : Int)
  | sendResponse (stxId : TxId) (dest : Option EP) (sendRv : Int)
  | createServerTx (d : EP) (t : TxId)
  | termTx (t : TxId)
  | channelClosed (d : EP)
  | idleTimeout (d : EP)
deriving Repr, DecidableEq

def NLState.step (s : NLState) : NLOp → NLState
  | .connect d => (s.connect d).2
  | .chanConnected d => s.chanConnected d
  | .requestChannel d => s.requestChannel d
  | .releaseChannel d => s.releaseChannel d
  | .sendRequest dest isAck t rv => (s.sendRequest dest isAck t rv).2
  | .sendResponse stxId dest rv => (s.sendResponse stxId dest rv).2
  | .createServerTx d t => s.createServerTx d t
  | .termTx t => s.termTx t
  | .channelClosed d => s.channelClosed d
  | .idleTimeout d => s.idleTimeout d

def NLState.run (s : NLState) : List NLOp → NLState
  | [] => s
  | op :: rest => (s.step op).run rest

/-!
## Concrete fixtures used by counterexamples and witnesses
-/

/-- A parsed request with no headers. -/
def c1msg : Message := (parseInternalSt freshMessage "OPTIONS sip:a@b SIP/2.0".data).2

/-- A valid network-layer trace: connect, use, one server transaction,
a response, termination, and the matching external release. -/
def c7ops : List NLOp :=
  [.connect 0, .chanConnected 0, .requestChannel 0, .createServerTx 0 1,
   .sendResponse 1 none 0, .termTx 1, .releaseChannel 0]

/-- A status line whose version text `2.00` is not of the one-digit,
one-digit shape. -/
def c3bytes : Chars := "SIP/2.00 200 OK".data

/-- A response with a contact-like header whose value carries an empty
quoted display name. -/
def c5bytes : Chars :=
  "SIP/2.0 200 OK".data ++ nul ::
    ("From: \"\" <sip:x>".data ++ [nul, nul])

/-- A response with one Via header line carrying two comma-separated Via
values. -/
def c2bytes : Chars :=
  "SIP/2.0 200 OK".data ++ nul ::
    ("Via: SIP/2.0/UDP h1, SIP/2.0/UDP h2".data ++ [nul, nul])

/-- A stable canonical response used as witness for the amended C5. -/
def c5wbytes : Chars :=
  "SIP/2.0 200 OK".data ++ nul ::
    ("Via: SIP/2.0/UDP h1".data ++ nul :: ("CSeq: 1 INVITE".data ++ [nul, nul]))

/-- The header lines of `c5wbytes` and the suffix `SetViaReceived`
appends, for the amended C2. -/
def c2wlines : List Chars :=
  ["Via: SIP/2.0/UDP h1".data, "CSeq: 1 INVITE".data]

def c2wsuffix : Chars := ";received=".data ++ "1.2.3.4".data

/-- A response with a single generic header. -/
def c6bytes : Chars :=
  "SIP/2.0 200 OK".data ++ nul :: ("X: 1".data ++ [nul, nul])

def c6msg : Message := (parseInternalSt freshMessage c6bytes).2

/-- A header whose contact-like value has two quoted strings: its
normalization fails with "repeated name". -/
def c6hdr : Chars := "From: \"a\" \"b\"".data

/-- INVITE without a magic-cookie branch and without a To tag (RFC 2543
peer). -/
def c4r : RequestId :=
  { method := "INVITE".data,
    topVia := some ⟨"10.0.0.1:5060".data, some "old1".data⟩,
    toTag := none, fromTag := some "ft".data, callId := "cid".data,
    cseq := ⟨1, "INVITE".data⟩ }

/-- A 486 final response to `c4r`; the UAS added To tag `tt`. -/
def c4f : ResponseId :=
  { statusCode := 486,
    topVia := some ⟨"10.0.0.1:5060".data, some "old1".data⟩,
    toTag := some "tt".data, fromTag := some "ft".data, callId := "cid".data,
    cseq := ⟨1, "INVITE".data⟩ }

/-- The ACK for `c4f` (To header, tag included, copied from the
response). -/
def c4a : RequestId :=
  { method := "ACK".data,
    topVia := some ⟨"10.0.0.1:5060".data, some "old1".data⟩,
    toTag := some "tt".data, fromTag := some "ft".data, callId := "cid".data,
    cseq := ⟨1, "ACK".data⟩ }

/-!
## Canonical-form predicates

Decidable predicates describing when a message is in piecewise-stable
canonical form.  They appear as hypotheses of the amended claims and are
checked by evaluation in the witnesses.
-/

/-- `s` has no embedded nulls. -/
def nulFree (s : Chars) : Bool := !s.contains nul

/-- A canonical header line is *fixed* when re-normalizing it reproduces
exactly the line followed by its null terminator. -/
def lineFixed (l : Chars) : Bool := normSeg l == (true, l ++ [nul])

/-- The last `value_end` of a run of continuation spans, defaulting to
`ve`. -/
def lastVE (ve : Nat) : List (Nat × Nat) → Nat
  | [] => ve
  | p :: t => lastVE p.2 t

/-- The `value_end` of the last entry of a block (relative offsets). -/
def blockLastVE (b : (Nat × Nat × Nat × Nat) × List (Nat × Nat)) : Nat :=
  lastVE b.1.2.2.2 b.2

/-- The span of a line's header group: from the top-level `name_begin` to
the last entry's `value_end` (offsets relative to the line). -/
def groupSpanRel (l : Chars) : Option (Nat × Nat) :=
  (blockOf l).map fun b => (b.1.1, blockLastVE b)

/-- The group of a line covers the line exactly: copying
`[name_begin, value_end)` copies the whole line. -/
def lineExact (l : Chars) : Bool := groupSpanRel l == some (0, l.length)

/-- The coalesced value bytes of a line's group. -/
def groupValueRel (l : Chars) : Chars :=
  match blockOf l with
  | some b => sliceStr l b.1.2.2.1 (blockLastVE b)
  | none => []

/-- Rebuilding `name ++ ": " ++ value` from the group reproduces the
line byte-for-byte. -/
def lineRebuilds (l : Chars) : Bool :=
  (nameOfSeg l ++ ':' :: ' ' :: groupValueRel l) == l

/-- Parsing the start line `s` from `base` succeeds, reproduces `s` in
the raw buffer, and yields exactly `M`'s start-line fields. -/
abbrev startFixedFrom (base M : Message) (s : Chars) : Prop :=
  parseStartLineSt base s = (true, { clearHdrs M with raw_headers := s })

/-- The line-level effect the amended C2 ascribes to `SetViaReceived`:
append the suffix to the first line named `via` (case-insensitively),
keep every other line byte-for-byte. -/
def mapFirstVia (suffix : Chars) : List Chars → List Chars
  | [] => []
  | l :: t =>
    if eqCI (nameOfSeg l) "via".data then (l ++ suffix) :: t
    else l :: mapFirstVia suffix t

/-- The header bytes `MergeWithMessage` keeps, expressed per line: lines
the header iterator skips contribute nothing; a line whose lower-cased
name is in `toRemove` is dropped; every other line is kept verbatim with
its null. -/
def keepLines (toRemove : List Chars) : List Chars → Chars
  | [] => []
  | l :: t =>
    (match blockOf l with
     | none => []
     | some _ =>
       if toRemove.contains (lowerStr (nameOfSeg l)) then [] else l ++ [nul]) ++
      keepLines toRemove t

/-- The `(first, last)` pair of index entries a canonical line's group
consists of, at buffer offset `off` (buffer length `L`); used to state
what `groupsOfParsed` yields on a canonical index. -/
def lineGroup (L off : Nat) (l : Chars) : ParsedHeader × ParsedHeader :=
  match blockOf l with
  | none => (⟨off, off, off, off⟩, ⟨off, off, off, off⟩)
  | some ((nb, ne, vb, ve), conts) =>
    (⟨off + nb, off + ne, off + vb, off + ve⟩,
     (conts.map (fun p => (⟨L, L, off + p.1, off + p.2⟩ : ParsedHeader))).getLastD
       ⟨off + nb, off + ne, off + vb, off + ve⟩)

/-- Per-line groups of a canonical sequence of lines starting at `off`;
lines the header iterator skips contribute no group. -/
def lineGroups (L off : Nat) : List Chars → List (ParsedHeader × ParsedHeader)
  | [] => []
  | l :: t =>
    (match blockOf l with
     | none => []
     | some _ => [lineGroup L off l]) ++ lineGroups L (off + l.length + 1) t

/-- Claim C8's parsed-index invariant: the first entry is a top-level
entry; every top-level entry has a non-empty, in-bounds name span lying
before its value span; every continuation entry has an empty name span;
and all value spans are well-formed and in bounds. -/
def indexWF (m : Message) : Prop :=
  (∀ e, m.parsed.head? = some e → e.is_continuation = false) ∧
  ∀ e ∈ m.parsed,
    (e.is_continuation = false →
      e.name_begin < e.name_end ∧ e.name_end ≤ e.value_begin) ∧
    (e.is_continuation = true → e.name_begin = e.name_end) ∧
    e.value_begin ≤ e.value_end ∧ e.value_end ≤ m.raw_headers.length

/-- Per-context reference-count invariant of the amended C7: the count
equals the number of registered transactions plus the outstanding
external holds, and both the count and the holds are non-negative. -/
def ctxInv (c : ChannelContext) : Prop :=
  c.refs = c.txs.length + c.ext ∧ 0 ≤ c.ext ∧ c.txs.Nodup

/-- Keys of an association list. -/
def keysOf {α : Type} (l : List (Nat × α)) : List Nat := l.map Prod.fst

/-- Erase every listed key from an association list. -/
def eraseList {α : Type} (ts : List Nat) (l : List (Nat × α)) : List (Nat × α) :=
  ts.foldl (fun acc t => eraseA t acc) l

/-- Full state invariant carried through the C7 induction. -/
def stateInv (s : NLState) : Prop :=
  (keysOf s.chans).Nodup ∧ (keysOf s.clientTxs).Nodup ∧
  (keysOf s.serverTxs).Nodup ∧
  (∀ t, lookupA t s.clientTxs = none ∨ lookupA t s.serverTxs = none) ∧
  (∀ p ∈ s.chans, ctxInv p.2) ∧
  (∀ p ∈ s.chans, ∀ t ∈ p.2.txs,
    lookupA t s.clientTxs = some p.1 ∨ lookupA t s.serverTxs = some p.1) ∧
  (∀ q ∈ s.clientTxs, ∃ c, lookupA q.2 s.chans = some c ∧ q.1 ∈ c.txs) ∧
  (∀ q ∈ s.serverTxs, ∃ c, lookupA q.2 s.chans = some c ∧ q.1 ∈ c.txs)

/-- Validity of one public operation at a state: transaction creation uses
a globally fresh id and an external release never exceeds the outstanding
external holds. -/
def validOp (s : NLState) : NLOp → Prop
  | .releaseChannel d =>
    (match lookupA d s.chans with
     | some c => 0 < c.ext
     | none => True)
  | .createServerTx _ t =>
    lookupA t s.clientTxs = none ∧ lookupA t s.serverTxs = none
  | .sendRequest _ _ t _ =>
    lookupA t s.clientTxs = none ∧ lookupA t s.serverTxs = none
  | _ => True

def validTrace : NLState → List NLOp → Prop
  | _, [] => True
  | s, op :: rest => validOp s op ∧ validTrace (s.step op) rest

/-!
## Claim theorems
-/

/-- Claim C1 (code bug).  The spec requires atomicity: a failed re-parse
must leave the message unchanged.  The mutation operations instead clear
`raw_headers_`/`parsed_` and call `ParseInternal` ignoring its return
value.  Evaluating the code at the failing input: for the parsed message
of `"OPTIONS sip:a@b SIP/2.0"`, `ReplaceStartLine("garbage")` triggers a
re-parse failure (no space in the start line) and leaves the message with
an empty raw-headers buffer instead of the original one. -/
theorem claim_C1_failed_reparse_clobbers :
    Message.ReplaceStartLine c1msg "garbage".data ≠ c1msg ∧
    (Message.ReplaceStartLine c1msg "garbage".data).raw_headers = [] ∧
    c1msg.raw_headers ≠ [] := by decide

/-- Claim C9.  An outgoing ACK request whose destination has no channel
context is rejected synchronously with `net::ERR_ABORTED` and the state —
in particular the channel map — is unchanged. -/
theorem claim_C9_ack_no_channel_aborts (s : NLState) (d : EP) (t : TxId)
    (rv : Int) (h : lookupA d s.chans = none) :
    s.sendRequest (some d) true t rv = (netERR_ABORTED, s) := by
  simp [NLState.sendRequest, h]

/-- Witness for C9 at a concrete state. -/
theorem claim_C9_witness :
    lookupA 0 NLState.empty.chans = none ∧
    NLState.empty.sendRequest (some 0) true 1 netOK =
      (netERR_ABORTED, NLState.empty) :=
  ⟨by decide, claim_C9_ack_no_channel_aborts NLState.empty 0 1 netOK (by decide)⟩

/-- Claim C10.  `SendResponse` returns `net::OK` whenever a matching
server transaction or a channel for the Via-derived next hop exists — the
channel `Send` result is ignored — and a non-OK return happens only for a
missing Via-derived destination (`ERR_INVALID_ARGUMENT`) or a missing
channel (`ERR_SOCKET_NOT_CONNECTED`). -/
theorem claim_C10_send_response_ok (s : NLState) (stx : TxId)
    (dest : Option EP) (rv : Int) :
    (((lookupA stx s.serverTxs).isSome = true ∨
        (∃ d, dest = some d ∧ (lookupA d s.chans).isSome = true)) →
      (s.sendResponse stx dest rv).1 = netOK) ∧
    ((s.sendResponse stx dest rv).1 ≠ netOK →
      lookupA stx s.serverTxs = none ∧
        ((dest = none ∧
            (s.sendResponse stx dest rv).1 = netERR_INVALID_ARGUMENT) ∨
          (∃ d, dest = some d ∧ lookupA d s.chans = none ∧
            (s.sendResponse stx dest rv).1 = netERR_SOCKET_NOT_CONNECTED))) := by
  constructor
  · rintro (h | ⟨d, rfl, h⟩)
    · match hs : lookupA stx s.serverTxs with
      | some _ => simp [NLState.sendResponse, hs]
      | none => rw [hs] at h; simp at h
    · match hs : lookupA stx s.serverTxs with
      | some _ => simp [NLState.sendResponse, hs]
      | none =>
        match hc : lookupA d s.chans with
        | some _ => simp [NLState.sendResponse, hs, hc]
        | none => rw [hc] at h; simp at h
  · intro h
    match hs : lookupA stx s.serverTxs with
    | some _ => simp [NLState.sendResponse, hs] at h
    | none =>
      refine ⟨rfl, ?_⟩
      match dest with
      | none => exact Or.inl ⟨rfl, by simp [NLState.sendResponse, hs]⟩
      | some d =>
        match hc : lookupA d s.chans with
        | some _ => simp [NLState.sendResponse, hs, hc] at h
        | none =>
          exact Or.inr ⟨d, rfl, hc, by simp [NLState.sendResponse, hs, hc]⟩

/-- Witness for C10 at a concrete state: an existing channel and an
immediate channel-send error still yield `net::OK`. -/
theorem claim_C10_witness :
    ((((lookupA 7 (NLState.empty.connect 3).2.serverTxs).isSome = true ∨
        (∃ d, (some 3 : Option EP) = some d ∧
          (lookupA d (NLState.empty.connect 3).2.chans).isSome = true)) →
      ((NLState.empty.connect 3).2.sendResponse 7 (some 3) (-2)).1 = netOK) ∧
    (((NLState.empty.connect 3).2.sendResponse 7 (some 3) (-2)).1 ≠ netOK →
      lookupA 7 (NLState.empty.connect 3).2.serverTxs = none ∧
        (((some 3 : Option EP) = none ∧
            ((NLState.empty.connect 3).2.sendResponse 7 (some 3) (-2)).1 =
              netERR_INVALID_ARGUMENT) ∨
          (∃ d, (some 3 : Option EP) = some d ∧
            lookupA d (NLState.empty.connect 3).2.chans = none ∧
            ((NLState.empty.connect 3).2.sendResponse 7 (some 3) (-2)).1 =
              netERR_SOCKET_NOT_CONNECTED)))) ∧
    ((NLState.empty.connect 3).2.sendResponse 7 (some 3) (-2)).1 = netOK :=
  ⟨claim_C10_send_response_ok (NLState.empty.connect 3).2 7 (some 3) (-2),
   by decide⟩

/-- Claim C4 counterexample.  On the RFC 2543 fallback path (no
magic-cookie branch) the server transaction IDs do not coincide: the ACK
carries the To tag the final response introduced, the INVITE does not,
and the To tag is part of the fallback ID.  All side conditions of the
claim hold at this instance, yet the IDs differ. -/
theorem claim_C4_counterexample :
    IsAckFor c4a c4r c4f ∧ IsFinalNon2xxFor c4f c4r ∧
    c4r.method = "INVITE".data ∧ c4r.topVia.isSome = true ∧
    ServerTransactionIdReq c4r ≠ ServerTransactionIdReq c4a ∧
    ServerTransactionIdReq c4r ≠ ServerTransactionIdResp c4f := by
  refine ⟨⟨rfl, rfl, rfl, rfl, rfl, rfl⟩, ⟨rfl, rfl, rfl, rfl, by decide,
    by decide, Or.inr rfl⟩, rfl, rfl, by decide, by decide⟩

/-- Folding leaves INVITE unchanged. -/
theorem foldMethod_invite : foldMethod "INVITE".data = "INVITE".data := by decide

/-- Folding leaves INVITE unchanged (literal form). -/
theorem foldMethod_invite_lit :
    foldMethod ['I', 'N', 'V', 'I', 'T', 'E'] = ['I', 'N', 'V', 'I', 'T', 'E'] := by
  decide

/-- Claim C4, amended.  For an INVITE `r` (CSeq method INVITE), its ACK
`a` for a non-2xx final response `f`: on the RFC 3261-compliant branch
(magic-cookie prefix) the three server transaction IDs always coincide,
with ACK folded into INVITE; on the fallback path they coincide provided
the response did not introduce a To tag absent from the request
(`f.toTag = r.toTag`). -/
theorem claim_C4_amended (r a : RequestId) (f : ResponseId) (v : ViaFront)
    (hm : r.method = "INVITE".data) (hcm : r.cseq.method = "INVITE".data)
    (hack : IsAckFor a r f) (hf : IsFinalNon2xxFor f r)
    (hv : r.topVia = some v) :
    (branchHasCookie v.branch = true →
      ServerTransactionIdReq r = ServerTransactionIdReq a ∧
      ServerTransactionIdReq r = ServerTransactionIdResp f) ∧
    (f.toTag = r.toTag →
      ServerTransactionIdReq r = ServerTransactionIdReq a ∧
      ServerTransactionIdReq r = ServerTransactionIdResp f) := by
  obtain ⟨ham, hav, hat, hafr, hac, hacs⟩ := hack
  obtain ⟨hfv, hfc, hff, hfcl, _, _, _⟩ := hf
  have hseq : a.cseq.sequence = r.cseq.sequence := by rw [hacs]
  have hameth : foldMethod a.method = foldMethod r.method := by
    rw [ham, hm]; rfl
  have hacm : foldMethod a.cseq.method = r.cseq.method := by
    rw [hacs, hcm]; rfl
  constructor
  · intro hck
    constructor
    · simp only [ServerTransactionIdReq, hv, hav ▸ hv, hck, hameth, if_true,
        hm, foldMethod_invite, foldMethod_invite_lit]
    · simp only [ServerTransactionIdReq, ServerTransactionIdResp, hv,
        hfv ▸ hv, hck, hm, hfc, hcm, if_true, foldMethod_invite, foldMethod_invite_lit]
  · intro htags
    cases hck : branchHasCookie v.branch with
    | true =>
      constructor
      · simp only [ServerTransactionIdReq, hv, hav ▸ hv, hck, hameth, if_true,
          hm, foldMethod_invite, foldMethod_invite_lit]
      · simp only [ServerTransactionIdReq, ServerTransactionIdResp, hv,
          hfv ▸ hv, hck, hm, hfc, hcm, if_true, foldMethod_invite, foldMethod_invite_lit]
    | false =>
      constructor
      · simp only [ServerTransactionIdReq, hv, hav ▸ hv, hck, fallbackId,
          hat, htags, hafr, hac, hseq, hameth, if_false, Bool.false_eq_true,
          hm, foldMethod_invite, foldMethod_invite_lit]
      · simp only [ServerTransactionIdReq, ServerTransactionIdResp, hv,
          hfv ▸ hv, hck, fallbackId, htags, hff, hfcl, hfc, hm, hacm, hcm,
          if_false, Bool.false_eq_true, foldMethod_invite, foldMethod_invite_lit]

/-- Witness for the amended C4 at a compliant-branch instance. -/
theorem claim_C4_amended_witness :
    let v : ViaFront := ⟨"h:5060".data, some "z9hG4bKabc".data⟩
    let r : RequestId := ⟨"INVITE".data, some v, none, some "ft".data,
      "cid".data, ⟨2, "INVITE".data⟩⟩
    let f : ResponseId := ⟨486, some v, some "tt".data, some "ft".data,
      "cid".data, ⟨2, "INVITE".data⟩⟩
    let a : RequestId := ⟨"ACK".data, some v, some "tt".data, some "ft".data,
      "cid".data, ⟨2, "ACK".data⟩⟩
    ServerTransactionIdReq r = ServerTransactionIdReq a ∧
    ServerTransactionIdReq r = ServerTransactionIdResp f := by
  intro v r f a
  exact (claim_C4_amended r a f v rfl rfl ⟨rfl, rfl, rfl, rfl, rfl, rfl⟩
    ⟨rfl, rfl, rfl, rfl, by decide, by decide, Or.inr rfl⟩ rfl).1 (by decide)

/-- Claim C3 counterexample.  The claim says `Message::Parse` rejects any
input whose SIP-Version text is not exactly one digit, a dot and one
digit.  The input `"SIP/2.00 200 OK"` has version text `2.00`, yet
parsing succeeds (the parser never looks past the first digit after `/`
and the first digit after the first `.`). -/
theorem claim_C3_counterexample :
    (Message.Parse c3bytes).isSome = true ∧
    (Message.Parse c3bytes).bind Message.sip_version = some (2, 0) ∧
    ((Message.Parse c3bytes).map Message.raw_headers) =
      some ("SIP/2.0 200 OK".data ++ [nul, nul]) := by decide

/-- Claim C5 counterexample.  `parse(serialize(parse(bytes)))` differs
from `parse(bytes)` for the accepted input
`"SIP/2.0 200 OK\0From: \"\" <sip:x>\0\0"`: the empty quoted display
name is dropped but leaves a second space in the canonical buffer
(`From:  <sip:x>`), which the re-parse then collapses
(`From: <sip:x>`). -/
theorem claim_C5_counterexample :
    (Message.Parse c5bytes).isSome = true ∧
    ((Message.Parse c5bytes).bind fun m => Message.Parse (serialize m)).isSome
      = true ∧
    ((Message.Parse c5bytes).bind fun m => Message.Parse (serialize m)) ≠
      Message.Parse c5bytes := by decide

/-- Claim C2 counterexample.  For a message whose first Via header line
holds two comma-separated Via values, `SetViaReceived` appends
`;received=` to the end of the whole line: the topmost Via value stays
unchanged and the second (subsequent) Via value is altered — contradicting
both halves of the claim. -/
theorem claim_C2_counterexample :
    (Message.Parse c2bytes).isSome = true ∧
    ((Message.Parse c2bytes).map fun m => enumHeaderValues m "via".data) =
      some ["SIP/2.0/UDP h1".data, "SIP/2.0/UDP h2".data] ∧
    ((Message.Parse c2bytes).map fun m =>
        enumHeaderValues (m.SetViaReceived "1.2.3.4".data) "via".data) =
      some ["SIP/2.0/UDP h1".data,
        "SIP/2.0/UDP h2;received=1.2.3.4".data] := by decide

/-- Claim C6 counterexample.  `c6msg` is a valid parsed message with no
`From` header and `c6hdr` (`From: "a" "b"`) is null-free, yet
`RemoveHeader(AddHeader(M, H), "From")` does not restore `M`: the
header's contact-like value fails normalization, the re-parse failure
clobbers the parsed index, and the subsequent remove rebuilds the message
from the start line alone, losing the `X` header. -/
theorem claim_C6_counterexample :
    (Message.Parse c6bytes = some c6msg) ∧
    c6hdr.contains nul = false ∧
    enumHeaderValues c6msg "from".data = [] ∧
    (c6msg.AddHeader c6hdr).RemoveHeader "From".data ≠ c6msg := by decide

/-- Claim C7 counterexample.  `ReleaseChannel` is a public operation and
decrements the reference count unconditionally; after `Connect` (count 0)
followed by `ReleaseChannel`, the count is `-1` — the claimed
non-negativity fails in a state reachable through public operations. -/
theorem claim_C7_counterexample :
    (lookupA 0 (NLState.empty.run [.connect 0, .releaseChannel 0]).chans).map
        ChannelContext.refs = some (-1) := by decide

/-! ### Supporting lemmas: `findChIdx` and list indexing -/

theorem findChIdx_some_get {p : Char → Bool} {l : Chars} {n : Nat}
    (h : findChIdx p l = some n) : ∃ c, l.get? n = some c ∧ p c = true := by
  induction l generalizing n with
  | nil => simp [findChIdx] at h
  | cons c t ih =>
    by_cases hc : p c
    · simp [findChIdx, hc] at h
      subst h
      exact ⟨c, rfl, hc⟩
    · simp [findChIdx, hc] at h
      obtain ⟨m, hm, rfl⟩ := h
      obtain ⟨d, hd, hpd⟩ := ih hm
      exact ⟨d, by simpa using hd, hpd⟩

theorem findChIdx_some_before {p : Char → Bool} {l : Chars} {n : Nat}
    (h : findChIdx p l = some n) : ∀ c ∈ l.take n, p c = false := by
  induction l generalizing n with
  | nil => simp
  | cons c t ih =>
    by_cases hc : p c
    · simp [findChIdx, hc] at h
      subst h
      simp
    · simp [findChIdx, hc] at h
      obtain ⟨m, hm, rfl⟩ := h
      intro d hd
      rw [List.take_succ_cons] at hd
      rcases List.mem_cons.mp hd with rfl | hd
      · simpa using hc
      · exact ih hm d hd

theorem findChIdx_append_first {p : Char → Bool} (a : Chars) {c0 : Char}
    (t : Chars) (ha : ∀ c ∈ a, p c = false) (hc : p c0 = true) :
    findChIdx p (a ++ c0 :: t) = some a.length := by
  induction a with
  | nil => simp [findChIdx, hc]
  | cons x a ih =>
    have hx : p x = false := ha x (List.mem_cons_self x a)
    have hstep : findChIdx p ((x :: a) ++ c0 :: t) =
        if p x = true then some 0
        else (findChIdx p (a ++ c0 :: t)).map (· + 1) := rfl
    rw [hstep, hx]
    simp only [Bool.false_eq_true, if_false]
    rw [ih (fun c hcm => ha c (List.mem_cons_of_mem _ hcm))]
    rfl

theorem get?_some_drop {l : Chars} {n : Nat} {c : Char}
    (h : l.get? n = some c) : l.drop n = c :: l.drop (n + 1) := by
  induction l generalizing n with
  | nil => simp at h
  | cons x t ih =>
    cases n with
    | zero => simp_all
    | succ m =>
      simp only [List.get?] at h
      simpa using ih h

/-- A digit character with numeric value 2 is `'2'`. -/
theorem digit_val_two {c : Char} (hd : isDigitChar c = true)
    (hv : c.toNat - 48 = 2) : c = '2' := by
  simp only [isDigitChar, Bool.and_eq_true, decide_eq_true_eq] at hd
  have h50 : c.toNat = 50 := by omega
  have := congrArg Char.ofNat h50
  rwa [Char.ofNat_toNat] at this

/-- A digit character with numeric value 0 is `'0'`. -/
theorem digit_val_zero {c : Char} (hd : isDigitChar c = true)
    (hv : c.toNat - 48 = 0) : c = '0' := by
  simp only [isDigitChar, Bool.and_eq_true, decide_eq_true_eq] at hd
  have h48 : c.toNat = 48 := by omega
  have := congrArg Char.ofNat h48
  rwa [Char.ofNat_toNat] at this

/-- Claim C3, amended.  `Message::ParseVersion` accepts (returns version
2.0, the only version `ParseRequestLine`/`ParseStatusLine` accept) exactly
when the line decomposes as a case-insensitive `sip`, a `/`, the digit `2`,
any dot-free run, then the first `.` followed by the digit `0` — with
arbitrary text allowed after either digit.  The strict one-digit,
one-digit shape of the claim is not enforced: only the first character
after `/` and the character after the first `.` are inspected. -/
theorem claim_C3_amended (line : Chars) :
    Message.ParseVersion line = (2, 0) ↔
      ∃ s mid rest, line = s ++ '/' :: '2' :: mid ++ '.' :: '0' :: rest ∧
        s.length = 3 ∧ eqCI s "sip".data = true ∧ '.' ∉ mid := by
  constructor
  · intro h
    unfold Message.ParseVersion at h
    split at h
    case isFalse => exact absurd h (by decide)
    case isTrue hsip =>
    split at h
    case h_2 => exact absurd h (by decide)
    case h_1 c h3 =>
    split at h
    case isFalse => exact absurd h (by decide)
    case isTrue hsl =>
    split at h
    case h_1 => exact absurd h (by decide)
    case h_2 d hfd =>
    split at h
    case h_2 => exact absurd h (by decide)
    case h_1 pc qc h4 h5 =>
    split at h
    case isFalse => exact absurd h (by decide)
    case isTrue hdg =>
    simp only [Prod.mk.injEq] at h
    have hdg1 : isDigitChar pc = true := by
      have := hdg; simp only [Bool.and_eq_true] at this; exact this.1
    have hdg2 : isDigitChar qc = true := by
      have := hdg; simp only [Bool.and_eq_true] at this; exact this.2
    have hpc : pc = '2' := digit_val_two hdg1 h.1
    have hqc : qc = '0' := digit_val_zero hdg2 h.2
    subst hpc; subst hqc
    have hc : c = '/' := eq_of_beq hsl
    subst hc
    -- structural decomposition
    have hd3 : line.drop 3 = '/' :: line.drop 4 := get?_some_drop h3
    have hd4 : line.drop 4 = '2' :: line.drop 5 := get?_some_drop h4
    -- the first dot is at index d ≥ 2 of `line.drop 3`
    have hz : ∃ z, findChIdx (· == '.') (line.drop 5) = some z ∧ z + 1 + 1 = d := by
      rw [hd3, hd4] at hfd
      simp only [findChIdx] at hfd
      simp at hfd
      cases hz0 : findChIdx (· == '.') (line.drop 5) with
      | none => rw [hz0] at hfd; simp at hfd
      | some z =>
        rw [hz0] at hfd
        simp at hfd
        exact ⟨z, rfl, by omega⟩
    obtain ⟨z, hfd5, hzd⟩ := hz
    obtain ⟨dc, hdc, hdcp⟩ := findChIdx_some_get hfd5
    have hdc' : dc = '.' := eq_of_beq hdcp
    subst hdc'
    have hdropz : line.drop 5 =
        (line.drop 5).take z ++ '.' :: (line.drop 5).drop (z + 1) := by
      conv_lhs => rw [← List.take_append_drop z (line.drop 5)]
      rw [get?_some_drop hdc]
    have hmid : ∀ c ∈ (line.drop 5).take z, (c == '.') = false :=
      findChIdx_some_before hfd5
    have h0pos : (line.drop 5).drop (z + 1) = line.drop (3 + d + 1) := by
      rw [List.drop_drop]
      congr 1
      omega
    have h0drop : line.drop (3 + d + 1) = '0' :: line.drop (3 + d + 2) :=
      get?_some_drop h5
    refine ⟨line.take 3, (line.drop 5).take z, line.drop (3 + d + 2),
      ?_, ?_, ?_, ?_⟩
    · calc line = line.take 3 ++ line.drop 3 := (List.take_append_drop 3 line).symm
        _ = line.take 3 ++ ('/' :: line.drop 4) := by rw [hd3]
        _ = line.take 3 ++ ('/' :: ('2' :: line.drop 5)) := by rw [hd4]
        _ = line.take 3 ++ ('/' :: ('2' ::
              ((line.drop 5).take z ++ '.' :: (line.drop 5).drop (z + 1)))) :=
          congrArg (fun x => line.take 3 ++ ('/' :: ('2' :: x))) hdropz
        _ = line.take 3 ++ ('/' :: ('2' ::
              ((line.drop 5).take z ++ '.' :: line.drop (3 + d + 1)))) := by
          rw [h0pos]
        _ = line.take 3 ++ ('/' :: ('2' ::
              ((line.drop 5).take z ++ '.' :: ('0' :: line.drop (3 + d + 2))))) := by
          rw [h0drop]
        _ = line.take 3 ++ '/' :: '2' :: (line.drop 5).take z ++
              '.' :: '0' :: line.drop (3 + d + 2) := by
          simp
    · have : 3 < line.length := (List.get?_eq_some.mp h3).1
      simp only [List.length_take]
      omega
    · have hlsip : lowerStr "sip".data = "sip".data := by decide
      simpa [eqCI, hlsip] using hsip
    · intro hmem
      have := hmid '.' hmem
      simp at this
  · rintro ⟨s, mid, rest, rfl, hlen, hci, hmid⟩
    have hline : s ++ '/' :: '2' :: mid ++ '.' :: '0' :: rest =
        s ++ ('/' :: ('2' :: (mid ++ '.' :: '0' :: rest))) := by simp
    rw [hline]
    have hlow : lowerStr ((s ++ ('/' :: ('2' :: (mid ++ '.' :: '0' :: rest)))).take 3)
        == "sip".data := by
      have ht : (s ++ ('/' :: ('2' :: (mid ++ '.' :: '0' :: rest)))).take 3 = s := by
        rw [← hlen, List.take_left]
      rw [ht]
      have hlsip : lowerStr "sip".data = "sip".data := by decide
      simpa [eqCI, hlsip] using hci
    have hg3 : (s ++ ('/' :: ('2' :: (mid ++ '.' :: '0' :: rest)))).get? 3 =
        some '/' := by
      rw [List.get?_append_right (by omega)]
      simp [hlen]
    have hg4 : (s ++ ('/' :: ('2' :: (mid ++ '.' :: '0' :: rest)))).get? 4 =
        some '2' := by
      rw [List.get?_append_right (by omega)]
      simp [hlen]
    have hdrop3 : (s ++ ('/' :: ('2' :: (mid ++ '.' :: '0' :: rest)))).drop 3 =
        '/' :: ('2' :: (mid ++ '.' :: '0' :: rest)) := by
      rw [← hlen, List.drop_left]
    have hfd : findChIdx (· == '.')
        ((s ++ ('/' :: ('2' :: (mid ++ '.' :: '0' :: rest)))).drop 3) =
        some (2 + mid.length) := by
      rw [hdrop3]
      have hres := @findChIdx_append_first (· == '.') ('/' :: '2' :: mid) '.'
        ('0' :: rest) ?_ (by decide)
      · have h2m : mid.length + 1 + 1 = 2 + mid.length := by omega
        simpa [List.cons_append, h2m] using hres
      · intro c hc
        rcases List.mem_cons.mp hc with rfl | hc
        · decide
        · rcases List.mem_cons.mp hc with rfl | hc
          · decide
          · have hcne : c ≠ '.' := fun he => hmid (he ▸ hc)
            simpa using hcne
    have hgd : (s ++ ('/' :: ('2' :: (mid ++ '.' :: '0' :: rest)))).get?
        (3 + (2 + mid.length) + 1) = some '0' := by
      rw [List.get?_append_right (by omega), hlen]
      have h1 : 3 + (2 + mid.length) + 1 - 3 = mid.length + 3 := by omega
      rw [h1]
      show (mid ++ '.' :: '0' :: rest).get? (mid.length + 1) = some '0'
      rw [List.get?_append_right (by omega)]
      simp
    unfold Message.ParseVersion
    rw [if_pos hlow, hg3]
    simp only [beq_self_eq_true, if_true, hfd, hg4, hgd]
    decide

/-- Witness for the amended C3: the loose shape with trailing digits
(`SIP/2.00`) is accepted as version 2.0. -/
theorem claim_C3_amended_witness :
    Message.ParseVersion "SIP/2.00".data = (2, 0) :=
  (claim_C3_amended "SIP/2.00".data).mpr
    ⟨"SIP".data, [], "0".data, by decide, by decide, by decide, by decide⟩

/-! ### Supporting lemmas: span bounds of the parsed index -/

theorem leadWS_le (s : Chars) : leadWS s ≤ s.length :=
  (List.takeWhile_prefix _).length_le

theorem tailWS_le (s : Chars) : tailWS s ≤ s.length := by
  have := (List.takeWhile_prefix (l := s.reverse) isSpTab).length_le
  simpa [tailWS] using this

theorem tailWS_lt_of_head {s : Chars} (hne : s ≠ [])
    (hh : isSpTab (s.headD nul) = false) : tailWS s < s.length := by
  rcases Nat.lt_or_ge (tailWS s) s.length with h | h
  · exact h
  · exfalso
    have hle := tailWS_le s
    have heq : tailWS s = s.length := le_antisymm hle h
    have hpre := List.takeWhile_prefix (l := s.reverse) isSpTab
    have hlen : (s.reverse.takeWhile isSpTab).length = s.reverse.length := by
      simpa [tailWS] using heq
    have hall : s.reverse.takeWhile isSpTab = s.reverse := hpre.eq_of_length hlen
    obtain ⟨c, t, rfl⟩ := List.exists_cons_of_ne_nil hne
    have hcmem : c ∈ (c :: t).reverse := by simp
    rw [← hall] at hcmem
    have := List.mem_takeWhile_imp hcmem
    simp [List.headD] at hh
    rw [hh] at this
    exact absurd this (by decide)

theorem findChIdx_lt_length {p : Char → Bool} {l : Chars} {n : Nat}
    (h : findChIdx p l = some n) : n < l.length := by
  obtain ⟨c, hc, _⟩ := findChIdx_some_get h
  exact (List.get?_eq_some.mp hc).1

/-- Span bounds of a successful header-iterator step. -/
theorem headerIterStep_bounds {s : Chars} {nb ne vb ve : Nat}
    (h : headerIterStep s = some (nb, ne, vb, ve)) :
    nb = 0 ∧ 1 ≤ ne ∧ ne ≤ vb ∧ vb ≤ ve ∧ ve ≤ s.length := by
  unfold headerIterStep at h
  split at h
  · exact absurd h (by simp)
  case h_2 colon hcol =>
    split at h
    · exact absurd h (by simp)
    case isFalse hc0 =>
      split at h
      · exact absurd h (by simp)
      case isFalse hws =>
        have hcl : colon < s.length := findChIdx_lt_length hcol
        have hc1 : 1 ≤ colon := by
          rcases Nat.eq_zero_or_pos colon with h0 | h0
          · exact absurd (by simpa using h0) hc0
          · exact h0
        have hne0 : s ≠ [] := by
          intro he
          rw [he] at hcl
          simp at hcl
        have hlt : (s.take colon).length = colon := by
          rw [List.length_take]
          omega
        have htake_ne : s.take colon ≠ [] := by
          intro he
          rw [he] at hlt
          simp at hlt
          omega
        have hh : isSpTab ((s.take colon).headD nul) = false := by
          obtain ⟨c, t, hct⟩ := List.exists_cons_of_ne_nil hne0
          subst hct
          rw [List.take_cons (by omega)]
          simpa using hws
        have htout : tailWS (s.take colon) < colon := by
          have := tailWS_lt_of_head htake_ne hh
          omega
        have hlead : leadWS (s.drop (colon + 1)) ≤ s.length - (colon + 1) := by
          have := leadWS_le (s.drop (colon + 1))
          simpa using this
        have htail2 : tailWS (s.drop (colon + 1 + leadWS (s.drop (colon + 1)))) ≤
            s.length - (colon + 1 + leadWS (s.drop (colon + 1))) := by
          have := tailWS_le (s.drop (colon + 1 + leadWS (s.drop (colon + 1))))
          simpa using this
        simp only [Option.some.injEq, Prod.mk.injEq] at h
        obtain ⟨h1, h2, h3, h4⟩ := h
        subst h1; subst h2; subst h3; subst h4
        refine ⟨rfl, by omega, by omega, by omega, by omega⟩

/-- Bounds of raw comma spans. -/
theorem commaScan_bounds {v : Chars} {i st : Nat} {q : Option Char} {esc : Bool}
    (hst : st ≤ i) :
    ∀ p ∈ commaScan v i st q esc, st ≤ p.1 ∧ p.1 ≤ p.2 ∧ p.2 ≤ i + v.length := by
  induction v generalizing i st q esc with
  | nil =>
    intro p hp
    simp [commaScan] at hp
    subst hp
    exact ⟨Nat.le_refl st, hst, by simp⟩
  | cons c t ih =>
    intro p hp
    match q with
    | some qc =>
      unfold commaScan at hp
      split at hp
      · have := @ih _ st _ _ (by omega) p hp
        simp at this ⊢
        omega
      · split at hp
        · have := @ih _ st _ _ (by omega) p hp
          simp at this ⊢
          omega
        · split at hp
          · have := @ih _ st _ _ (by omega) p hp
            simp at this ⊢
            omega
          · have := @ih _ st _ _ (by omega) p hp
            simp at this ⊢
            omega
    | none =>
      unfold commaScan at hp
      split at hp
      · rcases List.mem_cons.mp hp with rfl | hp
        · simp
          omega
        · have := @ih _ (i + 1) _ _ (by omega) p hp
          simp at this ⊢
          omega
      · split at hp
        · have := @ih _ st _ _ (by omega) p hp
          simp at this ⊢
          omega
        · have := @ih _ st _ _ (by omega) p hp
          simp at this ⊢
          omega

/-- Every trimmed piece is non-empty and within the value. -/
theorem piecesOf_bounds {v : Chars} :
    ∀ p ∈ piecesOf v, p.1 < p.2 ∧ p.2 ≤ v.length := by
  intro p hp
  obtain ⟨q, hq, htrim⟩ := List.mem_filterMap.mp hp
  have hb := commaScan_bounds (Nat.le_refl 0) q hq
  unfold trimPiece at htrim
  split at htrim
  case isTrue hltq =>
    have hpe := Option.some.inj htrim
    subst hpe
    refine ⟨hltq, ?_⟩
    simp only []
    simp at hb
    omega
  case isFalse => exact absurd htrim (by simp)

/-- Span bounds of a block. -/
theorem blockOf_bounds {s : Chars} {nb ne vb ve : Nat} {conts : List (Nat × Nat)}
    (h : blockOf s = some ((nb, ne, vb, ve), conts)) :
    nb = 0 ∧ 1 ≤ ne ∧ ne ≤ vb ∧ vb ≤ ve ∧ ve ≤ s.length ∧
    ∀ q ∈ conts, q.1 ≤ q.2 ∧ q.2 ≤ s.length := by
  unfold blockOf at h
  split at h
  · exact absurd h (by simp)
  case h_2 nb0 ne0 vb0 ve0 hstep =>
    have hb := headerIterStep_bounds hstep
    split at h
    · simp only [Option.some.injEq, Prod.mk.injEq] at h
      obtain ⟨⟨h1, h2, h3, h4⟩, h5⟩ := h
      subst h1; subst h2; subst h3; subst h4; subst h5
      exact ⟨hb.1, hb.2.1, hb.2.2.1, hb.2.2.2.1, hb.2.2.2.2, by simp⟩
    · split at h
      · exact absurd h (by simp)
      case h_2 a b rest hpieces =>
        have hval : (sliceStr s vb0 ve0).length = ve0 - vb0 := by
          unfold sliceStr
          rw [List.length_take, List.length_drop]
          omega
        have hab : (a, b) ∈ piecesOf (sliceStr s vb0 ve0) := by
          rw [hpieces]; simp
        have habb := piecesOf_bounds _ hab
        simp only [Option.some.injEq, Prod.mk.injEq] at h
        obtain ⟨⟨h1, h2, h3, h4⟩, h5⟩ := h
        subst h1; subst h2; subst h3; subst h4; subst h5
        simp only [] at habb
        refine ⟨hb.1, hb.2.1, by omega, by omega, by omega, ?_⟩
        intro q hq
        obtain ⟨q0, hq0, rfl⟩ := List.mem_map.mp hq
        have hq0m : q0 ∈ piecesOf (sliceStr s vb0 ve0) := by
          rw [hpieces]; simp [hq0]
        have hqb := piecesOf_bounds _ hq0m
        simp only []
        omega

/-- Total length accounting of null-separated segments. -/
def sumLens : List Chars → Nat
  | [] => 0
  | s :: t => s.length + 1 + sumLens t

theorem sumLens_splitNul (b : Chars) : sumLens (splitNul b) = b.length + 1 := by
  induction b with
  | nil => rfl
  | cons c t ih =>
    unfold splitNul
    split
    · simp [sumLens, ih]
      omega
    · match hs : splitNul t with
      | [] =>
        exfalso
        rw [hs] at ih
        simp [sumLens] at ih
      | s :: ss =>
        rw [hs] at ih
        simp only [sumLens] at ih ⊢
        simp [sumLens]
        omega

/-- Entry well-formedness of one indexed line. -/
theorem indexLine_wf {L off : Nat} {s : Chars} (hoff : off + s.length ≤ L) :
    ∀ e ∈ indexLine L off s,
      (e.is_continuation = false →
        e.name_begin < e.name_end ∧ e.name_end ≤ e.value_begin) ∧
      (e.is_continuation = true → e.name_begin = e.name_end) ∧
      e.value_begin ≤ e.value_end ∧ e.value_end ≤ L := by
  intro e he
  unfold indexLine at he
  cases hb : blockOf s with
  | none => rw [hb] at he; simp at he
  | some b =>
    rw [hb] at he
    obtain ⟨⟨nb, ne, vb, ve⟩, conts⟩ := b
    have hbb := blockOf_bounds hb
    simp only [] at he
    rcases List.mem_cons.mp he with rfl | he
    · have hnc : ParsedHeader.is_continuation
          ⟨off + nb, off + ne, off + vb, off + ve⟩ = false := by
        have hne2 : off + nb ≠ off + ne := by omega
        simpa [ParsedHeader.is_continuation] using hne2
      rw [hnc]
      refine ⟨fun _ => ⟨?_, ?_⟩, by simp [hnc], ?_, ?_⟩ <;>
        · simp only [ParsedHeader.name_begin, ParsedHeader.name_end,
            ParsedHeader.value_begin, ParsedHeader.value_end]
          omega
    · obtain ⟨q, hq, rfl⟩ := List.mem_map.mp he
      have hqb := hbb.2.2.2.2.2 q hq
      have hcc : ParsedHeader.is_continuation ⟨L, L, off + q.1, off + q.2⟩ = true := by
        simp [ParsedHeader.is_continuation]
      rw [hcc]
      refine ⟨by simp, fun _ => rfl, ?_, ?_⟩ <;>
        · simp only [ParsedHeader.value_begin, ParsedHeader.value_end]
          omega

theorem indexSegs_wf {L : Nat} :
    ∀ (segs : List Chars) (off : Nat), off + sumLens segs ≤ L + 1 →
    ∀ e ∈ indexSegs L off segs,
      (e.is_continuation = false →
        e.name_begin < e.name_end ∧ e.name_end ≤ e.value_begin) ∧
      (e.is_continuation = true → e.name_begin = e.name_end) ∧
      e.value_begin ≤ e.value_end ∧ e.value_end ≤ L := by
  intro segs
  induction segs with
  | nil => intro off _ e he; simp [indexSegs] at he
  | cons s t ih =>
    intro off hoff e he
    unfold indexSegs at he
    rcases List.mem_append.mp he with he | he
    · exact indexLine_wf (by simp [sumLens] at hoff; omega) e he
    · exact ih (off + s.length + 1) (by simp [sumLens] at hoff; omega) e he

theorem indexSegs_head {L : Nat} :
    ∀ (segs : List Chars) (off : Nat) (e : ParsedHeader),
      (indexSegs L off segs).head? = some e → e.is_continuation = false := by
  intro segs
  induction segs with
  | nil => intro off e he; simp [indexSegs] at he
  | cons s t ih =>
    intro off e he
    unfold indexSegs at he
    unfold indexLine at he
    rcases hb : blockOf s with _ | b
    · rw [hb] at he
      exact ih _ e (by simpa using he)
    · rw [hb] at he
      obtain ⟨⟨nb, ne, vb, ve⟩, conts⟩ := b
      simp only [List.cons_append, List.head?_cons, Option.some.injEq] at he
      subst he
      have hbb := blockOf_bounds hb
      simp [ParsedHeader.is_continuation]
      omega

/-- `ParseRequestLine` does not touch the parsed index. -/
theorem parseRequestVersion_parsed (m : Message) (r2 : Chars) :
    ((parseRequestVersion m r2).2).parsed = m.parsed := by
  unfold parseRequestVersion
  split <;> rfl

theorem parseRequestUri_parsed (m : Message) (r1 : Chars) :
    ((parseRequestUri m r1).2).parsed = m.parsed := by
  unfold parseRequestUri
  split
  · rfl
  · rw [parseRequestVersion_parsed]

theorem parseRequestLineSt_parsed (m : Message) (line : Chars) :
    ((parseRequestLineSt m line).2).parsed = m.parsed := by
  unfold parseRequestLineSt
  split
  · rfl
  · rw [parseRequestUri_parsed]

/-- `ParseStatusLine` does not touch the parsed index. -/
theorem parseStatusTail_parsed (m : Message) (r2mid : Chars) :
    ((parseStatusTail m r2mid).2).parsed = m.parsed := by
  unfold parseStatusTail
  split
  · rfl
  · split <;> rfl

theorem parseStatusRest_parsed (m : Message) (r1 : Chars) :
    ((parseStatusRest m r1).2).parsed = m.parsed := by
  unfold parseStatusRest
  split
  · rfl
  · rw [parseStatusTail_parsed]

theorem parseStatusLineSt_parsed (m : Message) (line : Chars) :
    ((parseStatusLineSt m line).2).parsed = m.parsed := by
  unfold parseStatusLineSt
  split
  · split
    · rfl
    · rw [parseStatusRest_parsed]
  · rfl

/-- `ParseStartLine` does not touch the parsed index. -/
theorem parseStartLineSt_parsed (m : Message) (line : Chars) :
    ((parseStartLineSt m line).2).parsed = m.parsed := by
  unfold parseStartLineSt
  split
  · exact parseStatusLineSt_parsed m line
  · exact parseRequestLineSt_parsed m line

/-- The header phase preserves the invariant shape: its result's index is
either the cleared one or a well-formed fresh one. -/
theorem parseHeadersInto_indexWF (m2 : Message) (rest : Chars)
    (hm2 : m2.parsed = []) : indexWF (parseHeadersInto m2 rest).2 := by
  unfold parseHeadersInto
  split
  case h_1 body hnorm =>
    exact ⟨fun e he => by simp [hm2] at he, fun e he => by simp [hm2] at he⟩
  case h_2 body hnorm =>
    constructor
    · intro e he
      exact indexSegs_head _ _ e (by simpa using he)
    · intro e he
      simp only [] at he
      have hsum : m2.raw_headers.length + sumLens (splitNul body) ≤
          (m2.raw_headers ++ body).length + 1 := by
        rw [sumLens_splitNul]
        simp
        omega
      have hwf := indexSegs_wf (L := (m2.raw_headers ++ body).length)
        (splitNul body) m2.raw_headers.length hsum e (by simpa using he)
      simpa using hwf

/-- Core of claim C8: any outcome of `ParseInternal` run on a cleared
message satisfies the parsed-index invariant. -/
theorem parseInternalSt_indexWF (m : Message) (input : Chars)
    (hm : m.parsed = []) : indexWF (parseInternalSt m input).2 := by
  have hempty : ∀ (m1 : Message), m1.parsed = [] → indexWF m1 := by
    intro m1 hm1
    exact ⟨fun e he => by simp [hm1] at he, fun e he => by simp [hm1] at he⟩
  unfold parseInternalSt
  split
  case h_1 m1 hps =>
    refine hempty m1 ?_
    have h2 := congrArg (fun q => (Prod.snd q).parsed) hps
    simp only [parseStartLineSt_parsed, hm] at h2
    exact h2.symm
  case h_2 m1 hps =>
    have hm1 : m1.parsed = [] := by
      have h2 := congrArg (fun q => (Prod.snd q).parsed) hps
      simp only [parseStartLineSt_parsed, hm] at h2
      exact h2.symm
    split
    · exact hempty _ (by simpa using hm1)
    · exact parseHeadersInto_indexWF _ _ (by simpa using hm1)

/-- Claim C8.  After every successful parse, and after every mutation
operation (all of which rebuild the message through `ParseInternal` on a
cleared object), the parsed index is well-formed: the first entry is a
top-level entry, every top-level entry has a non-empty in-bounds name
span preceding its value span, every continuation entry has an empty name
span, and all value spans are well-formed and within the buffer. -/
theorem claim_C8_parsed_index_invariant :
    (∀ (input : Chars) (M : Message), Message.Parse input = some M → indexWF M) ∧
    (∀ (m : Message) (h : Chars), indexWF (m.AddHeader h)) ∧
    (∀ (m : Message) (n : Chars), indexWF (m.RemoveHeader n)) ∧
    (∀ (m : Message) (n v : Chars), indexWF (m.RemoveHeaderLine n v)) ∧
    (∀ (m : Message) (s : Chars), indexWF (m.ReplaceStartLine s)) ∧
    (∀ (m : Message) (r : Chars), indexWF (m.SetViaReceived r)) := by
  refine ⟨?_, ?_, ?_, ?_, ?_, ?_⟩
  · intro input M h
    unfold Message.Parse at h
    split at h
    case h_1 M0 hps =>
      have := parseInternalSt_indexWF freshMessage input rfl
      rw [hps] at this
      simpa using (Option.some.inj h) ▸ this
    case h_2 => exact absurd h (by simp)
  · intro m h
    exact parseInternalSt_indexWF (clearHdrs m) _ rfl
  · intro m n
    exact parseInternalSt_indexWF (clearHdrs m) _ rfl
  · intro m n v
    exact parseInternalSt_indexWF (clearHdrs m) _ rfl
  · intro m s
    exact parseInternalSt_indexWF (clearHdrs m) _ rfl
  · intro m r
    exact parseInternalSt_indexWF (clearHdrs m) _ rfl

/-- Witness for C8 at a concrete parse and a concrete mutation. -/
theorem claim_C8_witness :
    (Message.Parse c2bytes = some ((parseInternalSt freshMessage c2bytes).2) ∧
      indexWF ((parseInternalSt freshMessage c2bytes).2)) ∧
    indexWF (c6msg.AddHeader "Subject: hi".data) :=
  ⟨⟨by decide,
    claim_C8_parsed_index_invariant.1 c2bytes _ (by decide)⟩,
   claim_C8_parsed_index_invariant.2.1 c6msg "Subject: hi".data⟩

/-! ### Supporting lemmas: canonical buffers and re-parsing -/

theorem nulFree_cons {c : Char} {s : Chars} (h : nulFree (c :: s) = true) :
    c ≠ nul ∧ nulFree s = true := by
  simp [nulFree] at h ⊢
  tauto

theorem takeWhile_nulfree_append {s : Chars} (r : Chars)
    (hs : nulFree s = true) :
    (s ++ nul :: r).takeWhile (· ≠ nul) = s := by
  induction s with
  | nil => simp
  | cons c t ih =>
    obtain ⟨hc, ht⟩ := nulFree_cons hs
    simp only [List.cons_append, List.takeWhile_cons]
    rw [if_pos (by simpa using hc)]
    rw [ih ht]

theorem splitNul_ne_nil (b : Chars) : splitNul b ≠ [] := by
  cases b with
  | nil => simp [splitNul]
  | cons c t =>
    unfold splitNul
    split
    · simp
    · split
      · simp
      · simp

theorem splitNul_append_nul {l : Chars} (r : Chars) (h : nulFree l = true) :
    splitNul (l ++ nul :: r) = l :: splitNul r := by
  induction l with
  | nil => simp [splitNul]
  | cons c t ih =>
    obtain ⟨hc, ht⟩ := nulFree_cons h
    rw [List.cons_append, splitNul]
    rw [if_neg (by simpa using hc)]
    rw [ih ht]

theorem joinLines_append (a b : List Chars) :
    joinLines (a ++ b) = joinLines a ++ joinLines b := by
  induction a with
  | nil => simp [joinLines]
  | cons l t ih => simp [joinLines, ih]

theorem splitNul_join {ls : List Chars} (h : ∀ l ∈ ls, nulFree l = true) :
    splitNul (joinLines ls ++ [nul]) = ls ++ [[], []] := by
  induction ls with
  | nil => simp [joinLines, splitNul]
  | cons l t ih =>
    have hl := h l (List.mem_cons_self l t)
    have ht := fun x hx => h x (List.mem_cons_of_mem _ hx)
    show splitNul ((l ++ nul :: joinLines t) ++ [nul]) = (l :: t) ++ [[], []]
    rw [show (l ++ nul :: joinLines t) ++ [nul] =
      l ++ nul :: (joinLines t ++ [nul]) by simp]
    rw [splitNul_append_nul _ hl, ih ht]
    rfl

theorem normSeg_nil : normSeg [] = (true, []) := rfl

theorem normLoop_append_true {a : List Chars} (b : List Chars) {o : Chars}
    (h : normLoop a = (true, o)) :
    normLoop (a ++ b) = ((normLoop b).1, o ++ (normLoop b).2) := by
  induction a generalizing o with
  | nil =>
    simp [normLoop] at h
    subst h
    simp
  | cons l t ih =>
    rw [normLoop] at h
    cases hout : normSeg l with
    | mk bl out =>
    rw [hout] at h
    cases bl with
    | false => exact absurd (congrArg Prod.fst h) (by simp)
    | true =>
      cases hrest : normLoop t with
      | mk b2 out2 =>
      rw [hrest] at h
      have hb2 : b2 = true := by simpa using congrArg Prod.fst h
      subst hb2
      have ho : o = out ++ out2 := by simpa using (congrArg Prod.snd h).symm
      subst ho
      rw [List.cons_append, normLoop, hout, ih hrest]
      simp

theorem normLoop_fixed {ls : List Chars} (h : ∀ l ∈ ls, lineFixed l = true) :
    normLoop ls = (true, joinLines ls) := by
  induction ls with
  | nil => rfl
  | cons l t ih =>
    have hl : normSeg l = (true, l ++ [nul]) := by
      have := h l (List.mem_cons_self l t)
      simpa [lineFixed] using this
    unfold normLoop
    rw [hl, ih (fun x hx => h x (List.mem_cons_of_mem _ hx))]
    simp [joinLines]

/-- Normalization of a canonical body consisting of fixed lines followed
by an appended new segment. -/
theorem normalizeHeaders_fixed {ls : List Chars}
    (h : ∀ l ∈ ls, lineFixed l = true) :
    NormalizeHeaders (ls ++ [[], []]) = (true, joinLines ls ++ [nul]) := by
  unfold NormalizeHeaders
  rw [normLoop_append_true [[], []] (normLoop_fixed h)]
  rw [show normLoop ([[], []] : List Chars) = (true, []) from rfl]
  simp

theorem drop_after_startline (s X : Chars) :
    (s ++ nul :: X).drop (s.length + 1) = X := by
  rw [show s ++ nul :: X = (s ++ [nul]) ++ X by simp,
    show s.length + 1 = (s ++ [nul]).length by simp, List.drop_left]

/-- The record-level identity used after re-parsing: restoring the raw
buffer and the index of a cleared message gives back the message. -/
theorem clearHdrs_eta (M : Message) :
    { clearHdrs M with raw_headers := M.raw_headers, parsed := M.parsed } = M := by
  cases M
  rfl

/-- Workhorse: `ParseInternal` on a canonical buffer whose start line
parses back to `M`'s fields and whose body normalizes to `Y`. -/
theorem parseInternalSt_canonical (base M : Message) (s X Y : Chars)
    (hs : nulFree s = true)
    (hst : parseStartLineSt base s = (true, { clearHdrs M with raw_headers := s }))
    (hnorm : NormalizeHeaders (splitNul X) = (true, Y)) :
    parseInternalSt base (s ++ nul :: X) =
      (true, { clearHdrs M with
        raw_headers := (s ++ [nul]) ++ Y,
        parsed := indexSegs ((s ++ [nul]) ++ Y).length (s ++ [nul]).length
                    (splitNul Y) }) := by
  have htw : (s ++ nul :: X).takeWhile (· ≠ nul) = s :=
    takeWhile_nulfree_append X hs
  have hlen : ((s ++ nul :: X).length == s.length) = false := by
    rw [beq_eq_false_iff_ne]
    simp
  unfold parseInternalSt
  rw [htw, hst]
  simp only [hlen, Bool.false_eq_true, if_false]
  rw [drop_after_startline]
  unfold parseHeadersInto
  rw [hnorm]

/-- Claim C5, amended.  For an accepted buffer whose canonical message is
piecewise stable — the start line re-parses from a fresh message to the
same fields and bytes, every header line individually re-normalizes to
itself, and the index is the canonical index of its lines — re-parsing
the serialized canonical form succeeds and reproduces the message
exactly.  (The counterexample shows the stability proviso is necessary:
an empty quoted display name yields a line that is rewritten on
re-parse.) -/
theorem claim_C5_amended (bytes : Chars) (M : Message) (s : Chars)
    (lines : List Chars)
    (h0 : Message.Parse bytes = some M)
    (hraw : M.raw_headers = s ++ nul :: (joinLines lines ++ [nul]))
    (hs : nulFree s = true)
    (hl : ∀ l ∈ lines, nulFree l = true)
    (hfix : ∀ l ∈ lines, lineFixed l = true)
    (hst : startFixedFrom freshMessage M s)
    (hp : M.parsed = indexSegs M.raw_headers.length (s.length + 1)
            (lines ++ [[], []])) :
    Message.Parse (serialize M) = some M := by
  have hsplit : splitNul (joinLines lines ++ [nul]) = lines ++ [[], []] :=
    splitNul_join hl
  have hnorm : NormalizeHeaders (splitNul (joinLines lines ++ [nul])) =
      (true, joinLines lines ++ [nul]) := by
    rw [hsplit]
    exact normalizeHeaders_fixed hfix
  have hcan := parseInternalSt_canonical freshMessage M s
    (joinLines lines ++ [nul]) (joinLines lines ++ [nul]) hs hst hnorm
  unfold serialize Message.Parse
  rw [hraw, hcan]
  have hmsg : ({ clearHdrs M with
      raw_headers := (s ++ [nul]) ++ (joinLines lines ++ [nul]),
      parsed := indexSegs ((s ++ [nul]) ++ (joinLines lines ++ [nul])).length
        (s ++ [nul]).length
        (splitNul (joinLines lines ++ [nul])) } : Message) = M := by
    rw [hsplit]
    rw [show (s ++ [nul]) ++ (joinLines lines ++ [nul]) = M.raw_headers from by
      rw [hraw]; simp]
    rw [show (s ++ [nul]).length = s.length + 1 from by simp]
    rw [← hp]
    exact clearHdrs_eta M
  rw [hmsg]

/-- Witness for the amended C5 at a concrete stable message. -/
theorem claim_C5_amended_witness :
    Message.Parse (serialize ((parseInternalSt freshMessage c5wbytes).2)) =
      some ((parseInternalSt freshMessage c5wbytes).2) :=
  claim_C5_amended c5wbytes _ "SIP/2.0 200 OK".data
    ["Via: SIP/2.0/UDP h1".data, "CSeq: 1 INVITE".data]
    (by decide) (by decide) (by decide) (by decide) (by decide) (by decide)
    (by decide)

/-! ### Groups of a canonical index (shared by the amended C2 and C6) -/

theorem sliceStr_inner (pre l rest : Chars) (a b : Nat) (hb : b ≤ l.length) :
    sliceStr (pre ++ (l ++ rest)) (pre.length + a) (pre.length + b) =
      sliceStr l a b := by
  unfold sliceStr
  have h1 : (pre ++ (l ++ rest)).drop (pre.length + a) = (l ++ rest).drop a := by
    rw [← List.drop_drop, List.drop_left]
  rw [h1, show pre.length + b - (pre.length + a) = b - a from by omega]
  rcases le_or_lt a b with hab | hab
  · have ha : a ≤ l.length := le_trans hab hb
    rw [List.drop_append_eq_append_drop,
      show a - l.length = 0 from by omega, List.drop_zero]
    exact List.take_append_of_le_length (by
      rw [List.length_drop]; omega)
  · rw [show b - a = 0 from by omega]
    simp

theorem sliceStr_full (l : Chars) : sliceStr l 0 l.length = l := by
  simp [sliceStr]

theorem getLastD_map_ve (L off : Nat) (conts : List (Nat × Nat)) :
    ∀ (T : ParsedHeader) (ve0 : Nat), T.value_end = off + ve0 →
    ((conts.map (fun p => (⟨L, L, off + p.1, off + p.2⟩ : ParsedHeader))).getLastD
        T).value_end = off + lastVE ve0 conts := by
  induction conts with
  | nil =>
    intro T ve0 h
    simpa [lastVE] using h
  | cons p t ih =>
    intro T ve0 h
    rw [List.map_cons, List.getLastD_cons, lastVE]
    exact ih ⟨L, L, off + p.1, off + p.2⟩ p.2 rfl

/-- The name span of a block is the header iterator's name span. -/
theorem blockOf_name {l : Chars} {nb ne vb ve : Nat} {conts : List (Nat × Nat)}
    (hb : blockOf l = some ((nb, ne, vb, ve), conts)) :
    nameOfSeg l = sliceStr l nb ne := by
  unfold blockOf at hb
  unfold nameOfSeg
  split at hb
  · exact absurd hb (by simp)
  case h_2 nb0 ne0 vb0 ve0 hstep =>
    rw [hstep]
    split at hb
    · simp only [Option.some.injEq, Prod.mk.injEq] at hb
      obtain ⟨⟨h1, h2, h3, h4⟩, h5⟩ := hb
      subst h1; subst h2
      rfl
    · split at hb
      · exact absurd hb (by simp)
      case h_2 qa qb rest hp =>
        simp only [Option.some.injEq, Prod.mk.injEq] at hb
        obtain ⟨⟨h1, h2, h3, h4⟩, h5⟩ := hb
        subst h1; subst h2
        rfl

theorem groupsAux_conts (cs : List ParsedHeader) :
    ∀ (rest : List ParsedHeader) (f c0 : ParsedHeader),
    (∀ e ∈ cs, e.is_continuation = true) →
    groupsAux (cs ++ rest) (f, c0) = groupsAux rest (f, cs.getLastD c0) := by
  induction cs with
  | nil =>
    intro rest f c0 _
    rfl
  | cons e t ih =>
    intro rest f c0 h
    have he := h e (List.mem_cons_self e t)
    rw [List.cons_append, groupsAux, he, if_pos rfl, List.getLastD_cons]
    exact ih rest f e (fun x hx => h x (List.mem_cons_of_mem _ hx))

theorem groupsAux_segs (L : Nat) (ls : List Chars) :
    ∀ (off : Nat) (f c0 : ParsedHeader),
    groupsAux (indexSegs L off ls) (f, c0) = (f, c0) :: lineGroups L off ls := by
  induction ls with
  | nil =>
    intro off f c0
    rfl
  | cons l t ih =>
    intro off f c0
    rw [indexSegs, lineGroups]
    cases hb : blockOf l with
    | none =>
      unfold indexLine
      rw [hb]
      simpa using ih (off + l.length + 1) f c0
    | some b =>
      obtain ⟨⟨nb, ne, vb, ve⟩, conts⟩ := b
      have hbd := blockOf_bounds hb
      unfold indexLine
      rw [hb]
      rw [List.cons_append, groupsAux]
      have hT : (⟨off + nb, off + ne, off + vb, off + ve⟩ :
          ParsedHeader).is_continuation = false := by
        simp only [ParsedHeader.is_continuation, beq_eq_false_iff_ne]
        omega
      rw [hT]
      simp only [Bool.false_eq_true, if_false]
      rw [groupsAux_conts _ _ _ _ (by
        intro e he
        obtain ⟨p, _, rfl⟩ := List.mem_map.mp he
        simp [ParsedHeader.is_continuation])]
      rw [ih (off + l.length + 1)]
      unfold lineGroup
      rw [hb]
      simp

theorem groupsOfParsed_segs (L : Nat) (ls : List Chars) :
    ∀ off : Nat, groupsOfParsed (indexSegs L off ls) = lineGroups L off ls := by
  induction ls with
  | nil =>
    intro off
    rfl
  | cons l t ih =>
    intro off
    rw [indexSegs, lineGroups]
    cases hb : blockOf l with
    | none =>
      unfold indexLine
      rw [hb]
      simpa using ih (off + l.length + 1)
    | some b =>
      obtain ⟨⟨nb, ne, vb, ve⟩, conts⟩ := b
      have hbd := blockOf_bounds hb
      unfold indexLine
      rw [hb]
      rw [List.cons_append, groupsOfParsed]
      rw [groupsAux_conts _ _ _ _ (by
        intro e he
        obtain ⟨p, _, rfl⟩ := List.mem_map.mp he
        simp [ParsedHeader.is_continuation])]
      rw [groupsAux_segs]
      unfold lineGroup
      rw [hb]
      simp

theorem indexSegs_pad (L : Nat) (ls : List Chars) :
    ∀ off : Nat, indexSegs L off (ls ++ [[], []]) = indexSegs L off ls := by
  induction ls with
  | nil =>
    intro off
    rfl
  | cons l t ih =>
    intro off
    rw [List.cons_append, indexSegs, indexSegs, ih]

theorem lineGroups_cons_some {l : Chars} {b : (Nat × Nat × Nat × Nat) × List (Nat × Nat)}
    (hb : blockOf l = some b) (L off : Nat) (t : List Chars) :
    lineGroups L off (l :: t) =
      lineGroup L off l :: lineGroups L (off + l.length + 1) t := by
  rw [lineGroups, hb]
  simp

theorem lineGroup_some {l : Chars} {nb ne vb ve : Nat} {conts : List (Nat × Nat)}
    (hb : blockOf l = some ((nb, ne, vb, ve), conts)) (L off : Nat) :
    lineGroup L off l =
      (⟨off + nb, off + ne, off + vb, off + ve⟩,
       (conts.map (fun p => (⟨L, L, off + p.1, off + p.2⟩ : ParsedHeader))).getLastD
         ⟨off + nb, off + ne, off + vb, off + ve⟩) := by
  unfold lineGroup
  rw [hb]

theorem lineExact_block {l : Chars} (h : lineExact l = true) :
    ∃ nb ne vb ve conts, blockOf l = some ((nb, ne, vb, ve), conts) ∧
      nb = 0 ∧ lastVE ve conts = l.length := by
  unfold lineExact groupSpanRel at h
  cases hb : blockOf l with
  | none =>
    rw [hb] at h
    simp at h
  | some b =>
    obtain ⟨⟨nb, ne, vb, ve⟩, conts⟩ := b
    rw [hb] at h
    simp [blockLastVE] at h
    exact ⟨nb, ne, vb, ve, conts, rfl, h.1, h.2⟩

theorem lineGroups_slices (L : Nat) (raw : Chars) (ls : List Chars) :
    ∀ pre post : Chars, raw = pre ++ (joinLines ls ++ post) →
    (∀ l ∈ ls, lineExact l = true) →
    (lineGroups L pre.length ls).map
      (fun (f, lst) => (sliceStr raw f.name_begin f.name_end,
        sliceStr raw f.value_begin lst.value_end)) =
      ls.map (fun l => (nameOfSeg l, groupValueRel l)) := by
  induction ls with
  | nil =>
    intro pre post _ _
    rfl
  | cons l t ih =>
    intro pre post hraw hex
    obtain ⟨nb, ne, vb, ve, conts, hb, hnb, hve⟩ :=
      lineExact_block (hex l (List.mem_cons_self l t))
    obtain ⟨hb1, hb2, hb3, hb4, hb5, hb6⟩ := blockOf_bounds hb
    have hraw2 : raw = pre ++ (l ++ (nul :: (joinLines t ++ post))) := by
      rw [hraw]
      simp [joinLines]
    have hname : sliceStr raw (pre.length + nb) (pre.length + ne) = nameOfSeg l := by
      rw [blockOf_name hb, hraw2]
      exact sliceStr_inner pre l _ nb ne (by omega)
    have hval : sliceStr raw (pre.length + vb) (pre.length + lastVE ve conts) =
        groupValueRel l := by
      unfold groupValueRel
      rw [hb, hraw2]
      exact sliceStr_inner pre l _ vb (lastVE ve conts) (by rw [hve])
    rw [lineGroups_cons_some hb, lineGroup_some hb, List.map_cons, List.map_cons]
    congr 1
    · show (sliceStr raw (pre.length + nb) (pre.length + ne),
        sliceStr raw (pre.length + vb)
          (((conts.map (fun p =>
              (⟨L, L, pre.length + p.1, pre.length + p.2⟩ : ParsedHeader))).getLastD
            ⟨pre.length + nb, pre.length + ne, pre.length + vb,
              pre.length + ve⟩).value_end)) =
        (nameOfSeg l, groupValueRel l)
      rw [getLastD_map_ve L pre.length conts _ ve rfl, hname, hval]
    · have hlen : (pre ++ l ++ [nul]).length = pre.length + l.length + 1 := by
        simp
        omega
      rw [← hlen]
      exact ih (pre ++ l ++ [nul]) post (by rw [hraw]; simp [joinLines])
        (fun x hx => hex x (List.mem_cons_of_mem _ hx))

/-- `EnumerateHeaderLines` on a canonical buffer yields each line's
header name with its coalesced value. -/
theorem enumLines_canonical (L : Nat) (pre post : Chars) (ls : List Chars)
    (hex : ∀ l ∈ ls, lineExact l = true) :
    enumLines (pre ++ (joinLines ls ++ post)) (indexSegs L pre.length ls) =
      ls.map (fun l => (nameOfSeg l, groupValueRel l)) := by
  unfold enumLines
  rw [groupsOfParsed_segs]
  exact lineGroups_slices L _ ls pre post rfl hex

theorem svrBuild_rest (received : Chars) (ls : List Chars)
    (hreb : ∀ l ∈ ls, lineRebuilds l = true) :
    svrBuild received (ls.map (fun l => (nameOfSeg l, groupValueRel l))) false =
      joinLines ls := by
  induction ls with
  | nil => rfl
  | cons l t ih =>
    have hl : (nameOfSeg l ++ ':' :: ' ' :: groupValueRel l) = l :=
      eq_of_beq (by
        have := hreb l (List.mem_cons_self l t)
        simpa [lineRebuilds] using this)
    simp only [List.map_cons]
    rw [svrBuild]
    simp only [Bool.and_false, Bool.false_eq_true, if_false]
    rw [ih (fun x hx => hreb x (List.mem_cons_of_mem _ hx))]
    rw [joinLines, hl]

theorem svrBuild_first (received : Chars) (ls : List Chars)
    (hreb : ∀ l ∈ ls, lineRebuilds l = true) :
    svrBuild received (ls.map (fun l => (nameOfSeg l, groupValueRel l))) true =
      joinLines (mapFirstVia (";received=".data ++ received) ls) := by
  induction ls with
  | nil => rfl
  | cons l t ih =>
    have hl : (nameOfSeg l ++ ':' :: ' ' :: groupValueRel l) = l :=
      eq_of_beq (by
        have := hreb l (List.mem_cons_self l t)
        simpa [lineRebuilds] using this)
    simp only [List.map_cons]
    rw [svrBuild, mapFirstVia]
    cases hv : eqCI (nameOfSeg l) "via".data with
    | true =>
      simp only [hv, Bool.and_true, if_true]
      rw [svrBuild_rest received t (fun x hx => hreb x (List.mem_cons_of_mem _ hx))]
      rw [joinLines]
      have hli : nameOfSeg l ++ ':' :: ' ' ::
          (groupValueRel l ++ ";received=".data ++ received) =
          l ++ (";received=".data ++ received) := by
        conv_rhs => rw [← hl]
        simp
      rw [hli]
    | false =>
      simp only [hv, Bool.false_and, Bool.false_eq_true, if_false]
      rw [ih (fun x hx => hreb x (List.mem_cons_of_mem _ hx))]
      rw [joinLines, hl]

/-- Claim C2, amended.  `SetViaReceived(received)` appends
`";received=" ++ received` to the coalesced value of the topmost Via
header *line* — not to the topmost Via value only: when the first Via
line holds several comma-separated values the suffix lands after the
last of them (see the counterexample) — and every other header line,
including every subsequent Via line, is preserved byte-for-byte.  Stated
for piecewise-stable canonical messages with at least one Via header:
the rebuilt message is exactly the canonical message whose lines are
`mapFirstVia` of the originals. -/
theorem claim_C2_amended (M : Message) (s received : Chars)
    (lines : List Chars)
    (hraw : M.raw_headers = s ++ nul :: (joinLines lines ++ [nul]))
    (hs : nulFree s = true)
    (hvia : lines.any (fun l => eqCI (nameOfSeg l) "via".data) = true)
    (hex : ∀ l ∈ lines, lineExact l = true)
    (hreb : ∀ l ∈ lines, lineRebuilds l = true)
    (hl2 : ∀ l ∈ mapFirstVia (";received=".data ++ received) lines,
      nulFree l = true)
    (hfix2 : ∀ l ∈ mapFirstVia (";received=".data ++ received) lines,
      lineFixed l = true)
    (hst : startFixedFrom (clearHdrs M) M s)
    (hp : M.parsed = indexSegs M.raw_headers.length (s.length + 1)
            (lines ++ [[], []])) :
    M.SetViaReceived received =
      { clearHdrs M with
        raw_headers := s ++ nul ::
          (joinLines (mapFirstVia (";received=".data ++ received) lines) ++ [nul]),
        parsed := indexSegs
          (s ++ nul ::
            (joinLines (mapFirstVia (";received=".data ++ received) lines) ++
              [nul])).length
          (s.length + 1)
          (mapFirstVia (";received=".data ++ received) lines ++ [[], []]) } := by
  have hgsl : M.GetStartLine = s := by
    unfold Message.GetStartLine
    rw [hraw]
    exact takeWhile_nulfree_append _ hs
  have he : enumLines M.raw_headers M.parsed =
      lines.map (fun l => (nameOfSeg l, groupValueRel l)) := by
    rw [hp, hraw, indexSegs_pad]
    rw [show s ++ nul :: (joinLines lines ++ [nul]) =
      (s ++ [nul]) ++ (joinLines lines ++ [nul]) from by simp]
    rw [show s.length + 1 = (s ++ [nul]).length from by simp]
    exact enumLines_canonical _ _ _ _ hex
  have hsplit : splitNul
      (joinLines (mapFirstVia (";received=".data ++ received) lines) ++ [nul]) =
      mapFirstVia (";received=".data ++ received) lines ++ [[], []] :=
    splitNul_join hl2
  have hnorm : NormalizeHeaders (splitNul
      (joinLines (mapFirstVia (";received=".data ++ received) lines) ++ [nul])) =
      (true,
        joinLines (mapFirstVia (";received=".data ++ received) lines) ++ [nul]) := by
    rw [hsplit]
    exact normalizeHeaders_fixed hfix2
  have hcan := parseInternalSt_canonical (clearHdrs M) M s
    (joinLines (mapFirstVia (";received=".data ++ received) lines) ++ [nul])
    (joinLines (mapFirstVia (";received=".data ++ received) lines) ++ [nul])
    hs hst hnorm
  unfold Message.SetViaReceived
  rw [hgsl, he, svrBuild_first received lines hreb]
  rw [show (s ++
      nul :: joinLines (mapFirstVia (";received=".data ++ received) lines)) ++
        [nul] =
    s ++ nul ::
      (joinLines (mapFirstVia (";received=".data ++ received) lines) ++ [nul])
    from by simp]
  rw [hcan]
  show ({ clearHdrs M with
      raw_headers := (s ++ [nul]) ++
        (joinLines (mapFirstVia (";received=".data ++ received) lines) ++ [nul]),
      parsed := indexSegs
        ((s ++ [nul]) ++
          (joinLines (mapFirstVia (";received=".data ++ received) lines) ++
            [nul])).length
        (s ++ [nul]).length
        (splitNul
          (joinLines (mapFirstVia (";received=".data ++ received) lines) ++
            [nul])) } : Message) = _
  rw [hsplit]
  rw [show (s ++ [nul]) ++
      (joinLines (mapFirstVia (";received=".data ++ received) lines) ++ [nul]) =
      s ++ nul ::
        (joinLines (mapFirstVia (";received=".data ++ received) lines) ++ [nul])
    from by simp]
  rw [show (s ++ [nul]).length = s.length + 1 from by simp]

/-- Witness for the amended C2 at a concrete single-valued-Via message. -/
theorem claim_C2_amended_witness :
    ((parseInternalSt freshMessage c5wbytes).2).SetViaReceived "1.2.3.4".data =
      { clearHdrs ((parseInternalSt freshMessage c5wbytes).2) with
        raw_headers := "SIP/2.0 200 OK".data ++ nul ::
          (joinLines (mapFirstVia c2wsuffix c2wlines) ++ [nul]),
        parsed := indexSegs
          ("SIP/2.0 200 OK".data ++ nul ::
            (joinLines (mapFirstVia c2wsuffix c2wlines) ++ [nul])).length
          ("SIP/2.0 200 OK".data.length + 1)
          (mapFirstVia c2wsuffix c2wlines ++ [[], []]) } :=
  claim_C2_amended _ "SIP/2.0 200 OK".data "1.2.3.4".data c2wlines
    (by decide) (by decide) (by decide) (by decide) (by decide) (by decide)
    (by decide) (by decide) (by decide)

theorem keepLines_cons_some {l : Chars} {b : (Nat × Nat × Nat × Nat) × List (Nat × Nat)}
    (hb : blockOf l = some b) (toRemove : List Chars) (t : List Chars) :
    keepLines toRemove (l :: t) =
      (if toRemove.contains (lowerStr (nameOfSeg l)) then [] else l ++ [nul]) ++
        keepLines toRemove t := by
  rw [keepLines, hb]

theorem keepLines_append (R : List Chars) (a : List Chars) :
    ∀ b : List Chars, keepLines R (a ++ b) = keepLines R a ++ keepLines R b := by
  induction a with
  | nil =>
    intro b
    rfl
  | cons l t ih =>
    intro b
    rw [List.cons_append, keepLines, keepLines, ih]
    simp

theorem keepLines_kept (R : List Chars) (ls : List Chars)
    (h : ∀ l ∈ ls, lineExact l = true ∧
      R.contains (lowerStr (nameOfSeg l)) = false) :
    keepLines R ls = joinLines ls := by
  induction ls with
  | nil => rfl
  | cons l t ih =>
    obtain ⟨hexl, hn⟩ := h l (List.mem_cons_self l t)
    obtain ⟨nb, ne, vb, ve, conts, hb, _, _⟩ := lineExact_block hexl
    rw [keepLines_cons_some hb, hn]
    simp only [Bool.false_eq_true, if_false]
    rw [ih (fun x hx => h x (List.mem_cons_of_mem _ hx))]
    rw [joinLines]
    simp

/-- `MergeWithMessage`'s kept bytes over a canonical index are exactly the
kept lines. -/
theorem mergeBytes_canonical (L : Nat) (raw : Chars) (toRemove : List Chars)
    (ls : List Chars) :
    ∀ pre post : Chars, raw = pre ++ (joinLines ls ++ post) →
    (∀ l ∈ ls, lineExact l = true) →
    mergeBytes raw toRemove (lineGroups L pre.length ls) =
      keepLines toRemove ls := by
  induction ls with
  | nil =>
    intro pre post _ _
    rfl
  | cons l t ih =>
    intro pre post hraw hex
    obtain ⟨nb, ne, vb, ve, conts, hb, hnb, hve⟩ :=
      lineExact_block (hex l (List.mem_cons_self l t))
    obtain ⟨hb1, hb2, hb3, hb4, hb5, hb6⟩ := blockOf_bounds hb
    have hraw2 : raw = pre ++ (l ++ (nul :: (joinLines t ++ post))) := by
      rw [hraw]
      simp [joinLines]
    have hname : sliceStr raw (pre.length + nb) (pre.length + ne) = nameOfSeg l := by
      rw [blockOf_name hb, hraw2]
      exact sliceStr_inner pre l _ nb ne (by omega)
    have hfull : sliceStr raw (pre.length + nb)
        (pre.length + lastVE ve conts) = l := by
      subst hnb
      rw [hraw2, hve, sliceStr_inner pre l _ 0 l.length (le_refl _)]
      exact sliceStr_full l
    rw [lineGroups_cons_some hb, lineGroup_some hb, keepLines_cons_some hb]
    rw [mergeBytes]
    rw [getLastD_map_ve L pre.length conts _ ve rfl]
    rw [hname, hfull]
    have hlen : (pre ++ l ++ [nul]).length = pre.length + l.length + 1 := by
      simp
      omega
    rw [← hlen]
    rw [ih (pre ++ l ++ [nul]) post (by rw [hraw]; simp [joinLines])
      (fun x hx => hex x (List.mem_cons_of_mem _ hx))]

/-- Claim C6, amended.  For a piecewise-stable canonical message with no
header line named like `H`, adding the stable, well-formed header `H` and
then removing it by name restores the message exactly:
`RemoveHeader(AddHeader(M, H), name) = M`.  The stability provisos are
necessary: the counterexample adds a malformed contact-like header whose
failed re-normalization truncates the buffer, after which the remove
cannot restore the original. -/
theorem claim_C6_amended (M : Message) (s name H : Chars) (lines : List Chars)
    (hraw : M.raw_headers = s ++ nul :: (joinLines lines ++ [nul]))
    (hs : nulFree s = true)
    (hl : ∀ l ∈ lines, nulFree l = true)
    (hfix : ∀ l ∈ lines, lineFixed l = true)
    (hex : ∀ l ∈ lines, lineExact l = true)
    (hno : ∀ l ∈ lines,
      ([lowerStr name].contains (lowerStr (nameOfSeg l))) = false)
    (hH : nulFree H = true)
    (hHfix : lineFixed H = true)
    (hHex : lineExact H = true)
    (hHname : ([lowerStr name].contains (lowerStr (nameOfSeg H))) = true)
    (hst : startFixedFrom (clearHdrs M) M s)
    (hp : M.parsed = indexSegs M.raw_headers.length (s.length + 1)
            (lines ++ [[], []])) :
    (M.AddHeader H).RemoveHeader name = M := by
  have hl' : ∀ l ∈ lines ++ [H], nulFree l = true := by
    intro x hx
    rcases List.mem_append.mp hx with h | h
    · exact hl x h
    · rw [List.mem_singleton.mp h]
      exact hH
  have hfix' : ∀ l ∈ lines ++ [H], lineFixed l = true := by
    intro x hx
    rcases List.mem_append.mp hx with h | h
    · exact hfix x h
    · rw [List.mem_singleton.mp h]
      exact hHfix
  have hex' : ∀ l ∈ lines ++ [H], lineExact l = true := by
    intro x hx
    rcases List.mem_append.mp hx with h | h
    · exact hex x h
    · rw [List.mem_singleton.mp h]
      exact hHex
  have hdrop : M.raw_headers.dropLast = s ++ nul :: joinLines lines := by
    rw [hraw, show s ++ nul :: (joinLines lines ++ [nul]) =
      (s ++ nul :: joinLines lines) ++ [nul] from by simp,
      List.dropLast_concat]
  have hbuf1 : M.raw_headers.dropLast ++ H ++ [nul, nul] =
      s ++ nul :: (joinLines (lines ++ [H]) ++ [nul]) := by
    rw [hdrop, joinLines_append]
    simp [joinLines]
  have hnorm1 : NormalizeHeaders (splitNul (joinLines (lines ++ [H]) ++ [nul])) =
      (true, joinLines (lines ++ [H]) ++ [nul]) := by
    rw [splitNul_join hl']
    exact normalizeHeaders_fixed hfix'
  have hcan1 := parseInternalSt_canonical (clearHdrs M) M s
    (joinLines (lines ++ [H]) ++ [nul]) (joinLines (lines ++ [H]) ++ [nul])
    hs hst hnorm1
  have hM2 : M.AddHeader H =
      { clearHdrs M with
        raw_headers := (s ++ [nul]) ++ (joinLines (lines ++ [H]) ++ [nul]),
        parsed := indexSegs
          ((s ++ [nul]) ++ (joinLines (lines ++ [H]) ++ [nul])).length
          (s ++ [nul]).length
          (splitNul (joinLines (lines ++ [H]) ++ [nul])) } := by
    unfold Message.AddHeader
    rw [hbuf1, hcan1]
  have hraw2 : (M.AddHeader H).raw_headers =
      (s ++ [nul]) ++ (joinLines (lines ++ [H]) ++ [nul]) := by
    rw [hM2]
  have hparsed2 : (M.AddHeader H).parsed = indexSegs
      ((s ++ [nul]) ++ (joinLines (lines ++ [H]) ++ [nul])).length
      (s ++ [nul]).length
      (splitNul (joinLines (lines ++ [H]) ++ [nul])) := by
    rw [hM2]
  have hclear2 : clearHdrs (M.AddHeader H) = clearHdrs M := by
    rw [hM2]
    rfl
  have hgsl2 : (M.AddHeader H).GetStartLine = s := by
    unfold Message.GetStartLine
    rw [hraw2, show (s ++ [nul]) ++ (joinLines (lines ++ [H]) ++ [nul]) =
      s ++ nul :: (joinLines (lines ++ [H]) ++ [nul]) from by simp]
    exact takeWhile_nulfree_append _ hs
  have hmb : mergeBytes ((s ++ [nul]) ++ (joinLines (lines ++ [H]) ++ [nul]))
      [lowerStr name]
      (groupsOfParsed (indexSegs
        ((s ++ [nul]) ++ (joinLines (lines ++ [H]) ++ [nul])).length
        (s ++ [nul]).length
        (splitNul (joinLines (lines ++ [H]) ++ [nul])))) =
      joinLines lines := by
    rw [splitNul_join hl', indexSegs_pad, groupsOfParsed_segs]
    rw [mergeBytes_canonical _ _ _ _ (s ++ [nul]) [nul] rfl hex']
    rw [keepLines_append]
    rw [keepLines_kept _ _ (fun x hx => ⟨hex x hx, hno x hx⟩)]
    obtain ⟨nb, ne, vb, ve, conts, hbH, _, _⟩ := lineExact_block hHex
    rw [keepLines_cons_some hbH, hHname]
    simp [keepLines]
  have hnorm0 : NormalizeHeaders (splitNul (joinLines lines ++ [nul])) =
      (true, joinLines lines ++ [nul]) := by
    rw [splitNul_join hl]
    exact normalizeHeaders_fixed hfix
  have hcan0 := parseInternalSt_canonical (clearHdrs M) M s
    (joinLines lines ++ [nul]) (joinLines lines ++ [nul]) hs hst hnorm0
  unfold Message.RemoveHeader mergeWithMessage
  rw [hgsl2, hraw2, hparsed2, hclear2, hmb]
  rw [show ((s ++ [nul]) ++ joinLines lines) ++ [nul] =
    s ++ nul :: (joinLines lines ++ [nul]) from by simp]
  rw [hcan0]
  show ({ clearHdrs M with
      raw_headers := (s ++ [nul]) ++ (joinLines lines ++ [nul]),
      parsed := indexSegs ((s ++ [nul]) ++ (joinLines lines ++ [nul])).length
        (s ++ [nul]).length
        (splitNul (joinLines lines ++ [nul])) } : Message) = M
  rw [splitNul_join hl]
  rw [show (s ++ [nul]) ++ (joinLines lines ++ [nul]) = M.raw_headers from by
    rw [hraw]
    simp]
  rw [show (s ++ [nul]).length = s.length + 1 from by simp]
  rw [← hp]
  exact clearHdrs_eta M

/-- Witness for the amended C6: adding and removing a Subject header on a
concrete canonical message restores it exactly. -/
theorem claim_C6_amended_witness :
    (c6msg.AddHeader "Subject: hello".data).RemoveHeader "Subject".data =
      c6msg :=
  claim_C6_amended c6msg "SIP/2.0 200 OK".data "Subject".data
    "Subject: hello".data ["X: 1".data]
    (by decide) (by decide) (by decide) (by decide) (by decide) (by decide)
    (by decide) (by decide) (by decide) (by decide) (by decide) (by decide)

/-! ### Association-list lemmas for the C7 invariant -/

theorem keysOf_nodup_cons {α : Type} {k : Nat} {v : α} {t : List (Nat × α)}
    (h : (keysOf ((k, v) :: t)).Nodup) : k ∉ keysOf t ∧ (keysOf t).Nodup := by
  rw [show keysOf ((k, v) :: t) = k :: keysOf t from rfl, List.nodup_cons] at h
  exact h

theorem lookupA_eraseA {α : Type} (k k2 : Nat) (l : List (Nat × α)) :
    lookupA k (eraseA k2 l) = if k == k2 then none else lookupA k l := by
  induction l with
  | nil =>
    simp [eraseA, lookupA]
  | cons p t ih =>
    obtain ⟨k3, v⟩ := p
    simp only [eraseA, lookupA, beq_iff_eq]
    split_ifs with h1 h2 h3 <;>
      simp_all [lookupA, beq_iff_eq]

theorem eraseA_of_lookup_none {α : Type} {k : Nat} {l : List (Nat × α)}
    (h : lookupA k l = none) : eraseA k l = l := by
  induction l with
  | nil => rfl
  | cons p t ih =>
    obtain ⟨k2, v⟩ := p
    rw [lookupA] at h
    by_cases hk : k = k2
    · rw [if_pos (by simp [hk])] at h
      exact absurd h (by simp)
    · rw [if_neg (by simp [hk])] at h
      rw [eraseA, if_neg (by simp [hk]), ih h]

theorem mem_eraseA {α : Type} {p : Nat × α} {k : Nat} {l : List (Nat × α)} :
    p ∈ eraseA k l ↔ p ∈ l ∧ ¬ p.1 = k := by
  induction l with
  | nil => simp [eraseA]
  | cons q t ih =>
    obtain ⟨k2, v⟩ := q
    by_cases hk : k = k2
    · subst hk
      rw [eraseA, if_pos (by simp)]
      rw [ih]
      constructor
      · rintro ⟨hm, hne⟩
        exact ⟨List.mem_cons_of_mem _ hm, hne⟩
      · rintro ⟨hm, hne⟩
        rcases List.mem_cons.mp hm with he | hm2
        · exact absurd (by rw [he]) hne
        · exact ⟨hm2, hne⟩
    · rw [eraseA, if_neg (by simp [hk])]
      constructor
      · intro hm
        rcases List.mem_cons.mp hm with he | hm2
        · subst he
          exact ⟨List.mem_cons_self _ _, by simpa using fun he2 => hk he2.symm⟩
        · obtain ⟨hm3, hne⟩ := ih.mp hm2
          exact ⟨List.mem_cons_of_mem _ hm3, hne⟩
      · rintro ⟨hm, hne⟩
        rcases List.mem_cons.mp hm with he | hm2
        · rw [he]
          exact List.mem_cons_self _ _
        · exact List.mem_cons_of_mem _ (ih.mpr ⟨hm2, hne⟩)

theorem mem_keysOf {α : Type} {k : Nat} {l : List (Nat × α)} :
    k ∈ keysOf l ↔ ∃ v, (k, v) ∈ l := by
  unfold keysOf
  rw [List.mem_map]
  constructor
  · rintro ⟨⟨k2, v⟩, hm, rfl⟩
    exact ⟨v, hm⟩
  · rintro ⟨v, hm⟩
    exact ⟨(k, v), hm, rfl⟩

theorem nodup_eraseA {α : Type} (k : Nat) {l : List (Nat × α)}
    (h : (keysOf l).Nodup) : (keysOf (eraseA k l)).Nodup := by
  induction l with
  | nil => simpa [eraseA] using h
  | cons p t ih =>
    obtain ⟨k2, v⟩ := p
    have hk2 : k2 ∉ keysOf t := (keysOf_nodup_cons h).1
    have ht : (keysOf t).Nodup := (keysOf_nodup_cons h).2
    by_cases hk : k = k2
    · rw [eraseA, if_pos (by simp [hk])]
      exact ih ht
    · rw [eraseA, if_neg (by simp [hk])]
      refine List.Nodup.cons ?_ (ih ht)
      intro hmem
      obtain ⟨v2, hv2⟩ := mem_keysOf.mp hmem
      exact hk2 (mem_keysOf.mpr ⟨v2, (mem_eraseA.mp hv2).1⟩)

theorem lookupA_updateA {α : Type} (k k2 : Nat) (v : α) (l : List (Nat × α)) :
    lookupA k (updateA k2 v l) = if k == k2 then some v else lookupA k l := by
  unfold updateA
  rw [lookupA, lookupA_eraseA]
  by_cases h : k = k2
  · simp [h]
  · simp [h]

theorem mem_updateA {α : Type} {p : Nat × α} {k : Nat} {v : α}
    {l : List (Nat × α)} :
    p ∈ updateA k v l ↔ p = (k, v) ∨ (p ∈ l ∧ ¬ p.1 = k) := by
  unfold updateA
  rw [List.mem_cons, mem_eraseA]

theorem nodup_updateA {α : Type} (k : Nat) (v : α) {l : List (Nat × α)}
    (h : (keysOf l).Nodup) : (keysOf (updateA k v l)).Nodup := by
  unfold updateA
  show ((k, v).1 :: keysOf (eraseA k l)).Nodup
  refine List.Nodup.cons ?_ (nodup_eraseA k h)
  intro hmem
  obtain ⟨v2, hv2⟩ := mem_keysOf.mp hmem
  exact absurd rfl (mem_eraseA.mp hv2).2

theorem lookupA_of_mem_nodup {α : Type} {l : List (Nat × α)}
    (h : (keysOf l).Nodup) {p : Nat × α} (hp : p ∈ l) :
    lookupA p.1 l = some p.2 := by
  induction l with
  | nil => exact absurd hp (by simp)
  | cons q t ih =>
    obtain ⟨k2, v⟩ := q
    have hk2 : k2 ∉ keysOf t := (keysOf_nodup_cons h).1
    have ht : (keysOf t).Nodup := (keysOf_nodup_cons h).2
    rcases List.mem_cons.mp hp with he | hm
    · subst he
      rw [lookupA, if_pos (by simp)]
    · rw [lookupA]
      have hne : ¬ p.1 = k2 := by
        intro he
        exact hk2 (he ▸ mem_keysOf.mpr ⟨p.2, hm⟩)
      rw [if_neg (by simpa using hne)]
      exact ih ht hm

theorem mem_of_lookupA {α : Type} {l : List (Nat × α)} {k : Nat} {v : α}
    (h : lookupA k l = some v) : (k, v) ∈ l := by
  induction l with
  | nil => exact absurd h (by simp [lookupA])
  | cons q t ih =>
    obtain ⟨k2, v2⟩ := q
    rw [lookupA] at h
    by_cases hk : k = k2
    · rw [if_pos (by simp [hk])] at h
      subst hk
      rw [show v2 = v from by simpa using h]
      exact List.mem_cons_self _ _
    · rw [if_neg (by simp [hk])] at h
      exact List.mem_cons_of_mem _ (ih h)

theorem lookupA_mapCtx_self (d : EP) (f : ChannelContext → ChannelContext)
    (l : List (EP × ChannelContext)) :
    lookupA d (mapCtx d f l) = (lookupA d l).map f := by
  induction l with
  | nil => simp [mapCtx, lookupA]
  | cons p t ih =>
    obtain ⟨k, c⟩ := p
    by_cases hk : d = k
    · subst hk
      rw [mapCtx, if_pos (by simp)]
      rw [lookupA, if_pos (by simp), lookupA, if_pos (by simp)]
      rfl
    · rw [mapCtx, if_neg (by simp [hk])]
      rw [lookupA, if_neg (by simp [hk]), lookupA, if_neg (by simp [hk])]
      exact ih

theorem lookupA_mapCtx_ne {d k : EP} (f : ChannelContext → ChannelContext)
    (l : List (EP × ChannelContext)) (h : ¬ k = d) :
    lookupA k (mapCtx d f l) = lookupA k l := by
  induction l with
  | nil => rfl
  | cons p t ih =>
    obtain ⟨k2, c⟩ := p
    by_cases hk : d = k2
    · subst hk
      rw [mapCtx, if_pos (by simp)]
      rw [lookupA, lookupA, if_neg (by simpa using h), if_neg (by simpa using h)]
    · rw [mapCtx, if_neg (by simp [hk])]
      by_cases hk2 : k = k2
      · rw [lookupA, lookupA, if_pos (by simp [hk2]), if_pos (by simp [hk2])]
      · rw [lookupA, lookupA, if_neg (by simp [hk2]), if_neg (by simp [hk2])]
        exact ih

theorem keysOf_mapCtx (d : EP) (f : ChannelContext → ChannelContext)
    (l : List (EP × ChannelContext)) : keysOf (mapCtx d f l) = keysOf l := by
  induction l with
  | nil => rfl
  | cons p t ih =>
    obtain ⟨k, c⟩ := p
    by_cases hk : d = k
    · rw [mapCtx, if_pos (by simp [hk])]
      rfl
    · rw [mapCtx, if_neg (by simp [hk])]
      show k :: keysOf (mapCtx d f t) = k :: keysOf t
      rw [ih]

theorem mem_mapCtx_nodup {p : EP × ChannelContext} {d : EP}
    {f : ChannelContext → ChannelContext} {l : List (EP × ChannelContext)}
    (hnd : (keysOf l).Nodup) (hp : p ∈ mapCtx d f l) :
    (p ∈ l ∧ ¬ p.1 = d) ∨ ∃ c, lookupA d l = some c ∧ p = (d, f c) := by
  induction l with
  | nil => exact absurd hp (by simp [mapCtx])
  | cons q t ih =>
    obtain ⟨k, c⟩ := q
    have hk2 : k ∉ keysOf t := (keysOf_nodup_cons hnd).1
    have ht : (keysOf t).Nodup := (keysOf_nodup_cons hnd).2
    by_cases hk : d = k
    · subst hk
      rw [mapCtx, if_pos (by simp)] at hp
      rcases List.mem_cons.mp hp with he | hm
      · right
        exact ⟨c, by rw [lookupA, if_pos (by simp)], he⟩
      · left
        refine ⟨List.mem_cons_of_mem _ hm, ?_⟩
        intro he
        exact hk2 (he ▸ mem_keysOf.mpr ⟨p.2, hm⟩)
    · rw [mapCtx, if_neg (by simp [hk])] at hp
      rcases List.mem_cons.mp hp with he | hm
      · left
        refine ⟨by rw [he]; exact List.mem_cons_self _ _, ?_⟩
        rw [he]
        intro he2
        exact hk (he2.symm)
      · rcases ih ht hm with ⟨hm2, hne⟩ | ⟨c2, hc2, he2⟩
        · exact Or.inl ⟨List.mem_cons_of_mem _ hm2, hne⟩
        · right
          refine ⟨c2, ?_, he2⟩
          rw [lookupA, if_neg (by simpa using hk)]
          exact hc2

theorem lookupA_eraseList {α : Type} (k : Nat) (ts : List Nat) :
    ∀ l : List (Nat × α),
    lookupA k (eraseList ts l) = if ts.contains k then none else lookupA k l := by
  induction ts with
  | nil =>
    intro l
    simp [eraseList]
  | cons t ts2 ih =>
    intro l
    show lookupA k (eraseList ts2 (eraseA t l)) = _
    rw [ih (eraseA t l), lookupA_eraseA]
    by_cases hk : k = t
    · subst hk
      by_cases hm : ts2.contains k
      · simp [hm]
      · simp [hm]
    · by_cases hm : ts2.contains k
      · simp [hm, hk]
      · simp [hm, hk]

theorem mem_eraseList {α : Type} {p : Nat × α} (ts : List Nat) :
    ∀ l : List (Nat × α),
    p ∈ eraseList ts l ↔ p ∈ l ∧ ¬ p.1 ∈ ts := by
  induction ts with
  | nil =>
    intro l
    simp [eraseList]
  | cons t ts2 ih =>
    intro l
    show p ∈ eraseList ts2 (eraseA t l) ↔ _
    rw [ih (eraseA t l), mem_eraseA]
    constructor
    · rintro ⟨⟨hm, hne⟩, hnm⟩
      exact ⟨hm, by simp [hne, hnm]⟩
    · rintro ⟨hm, hnm⟩
      simp at hnm
      exact ⟨⟨hm, hnm.1⟩, hnm.2⟩

theorem nodup_eraseList {α : Type} (ts : List Nat) :
    ∀ {l : List (Nat × α)}, (keysOf l).Nodup → (keysOf (eraseList ts l)).Nodup := by
  induction ts with
  | nil =>
    intro l h
    simpa [eraseList] using h
  | cons t ts2 ih =>
    intro l h
    show (keysOf (eraseList ts2 (eraseA t l))).Nodup
    exact ih (nodup_eraseA t h)

theorem length_filter_ne {t : Nat} {ts : List Nat} (hnd : ts.Nodup)
    (ht : t ∈ ts) : (ts.filter (· ≠ t)).length + 1 = ts.length := by
  induction ts with
  | nil => exact absurd ht (by simp)
  | cons a ts2 ih =>
    rcases List.mem_cons.mp ht with he | hm
    · subst he
      have hnm : t ∉ ts2 := (List.nodup_cons.mp hnd).1
      rw [List.filter_cons_of_neg (by simp)]
      rw [List.filter_eq_self.mpr (by
        intro x hx
        simp only [decide_eq_true_eq]
        intro he2
        exact hnm (he2 ▸ hx))]
      simp
    · have hane : ¬ a = t := by
        intro he
        exact (List.nodup_cons.mp hnd).1 (he ▸ hm)
      rw [List.filter_cons_of_pos (by simpa using hane)]
      rw [List.length_cons, List.length_cons,
        ih (List.nodup_cons.mp hnd).2 hm]

/-! ### C7: preservation of the state invariant -/

theorem destroyTxIn_eval_some {global : List (TxId × EP)}
    {chans : List (EP × ChannelContext)} {t : TxId} {d : EP}
    (h : lookupA t global = some d) :
    destroyTxIn global chans t =
      (eraseA t global,
       match lookupA d chans with
       | none => chans
       | some _ =>
         mapCtx d
           (fun c => releaseChannelInternal { c with txs := c.txs.filter (· ≠ t) })
           chans) := by
  unfold destroyTxIn
  rw [h]

theorem destroyTxIn_eval_none {global : List (TxId × EP)}
    {chans : List (EP × ChannelContext)} {t : TxId}
    (h : lookupA t global = none) :
    destroyTxIn global chans t = (global, chans) := by
  unfold destroyTxIn
  rw [h]

theorem termTx_eval_cli_nochan {s : NLState} {t : TxId} {d : EP}
    (h1 : lookupA t s.clientTxs = some d) (h2 : lookupA d s.chans = none) :
    s.termTx t = { s with clientTxs := eraseA t s.clientTxs } := by
  unfold NLState.termTx
  rw [h1, destroyTxIn_eval_some h1, h2]

theorem termTx_eval_cli_chan {s : NLState} {t : TxId} {d : EP} {c : ChannelContext}
    (h1 : lookupA t s.clientTxs = some d) (h2 : lookupA d s.chans = some c) :
    s.termTx t = { s with
      clientTxs := eraseA t s.clientTxs,
      chans := mapCtx d
        (fun c2 => releaseChannelInternal { c2 with txs := c2.txs.filter (· ≠ t) })
        s.chans } := by
  unfold NLState.termTx
  rw [h1, destroyTxIn_eval_some h1, h2]

theorem termTx_eval_none {s : NLState} {t : TxId}
    (h1 : lookupA t s.clientTxs = none) (h2 : lookupA t s.serverTxs = none) :
    s.termTx t = s := by
  unfold NLState.termTx
  rw [h1, destroyTxIn_eval_none h2]

theorem termTx_eval_srv_nochan {s : NLState} {t : TxId} {d : EP}
    (h1 : lookupA t s.clientTxs = none) (h2 : lookupA t s.serverTxs = some d)
    (h3 : lookupA d s.chans = none) :
    s.termTx t = { s with serverTxs := eraseA t s.serverTxs } := by
  unfold NLState.termTx
  rw [h1, destroyTxIn_eval_some h2, h3]

theorem termTx_eval_srv_chan {s : NLState} {t : TxId} {d : EP} {c : ChannelContext}
    (h1 : lookupA t s.clientTxs = none) (h2 : lookupA t s.serverTxs = some d)
    (h3 : lookupA d s.chans = some c) :
    s.termTx t = { s with
      serverTxs := eraseA t s.serverTxs,
      chans := mapCtx d
        (fun c2 => releaseChannelInternal { c2 with txs := c2.txs.filter (· ≠ t) })
        s.chans } := by
  unfold NLState.termTx
  rw [h1, destroyTxIn_eval_some h2, h3]

/-- A context update that keeps the transaction set preserves the
invariant whenever it preserves `ctxInv`. -/
theorem stateInv_mapCtx_chans (s : NLState) (d : EP)
    (f : ChannelContext → ChannelContext)
    (hSI : stateInv s)
    (hf1 : ∀ c, (d, c) ∈ s.chans → ctxInv (f c))
    (hf2 : ∀ c, (f c).txs = c.txs) :
    stateInv { s with chans := mapCtx d f s.chans } := by
  obtain ⟨h1, h2, h3, h4, h5, h6, h7, h8⟩ := hSI
  refine ⟨?_, h2, h3, h4, ?_, ?_, ?_, ?_⟩
  · show (keysOf (mapCtx d f s.chans)).Nodup
    rw [keysOf_mapCtx]
    exact h1
  · intro p hp
    rcases mem_mapCtx_nodup h1 hp with ⟨hm, _⟩ | ⟨c, hc, he⟩
    · exact h5 p hm
    · rw [he]
      exact hf1 c (mem_of_lookupA hc)
  · intro p hp t ht
    rcases mem_mapCtx_nodup h1 hp with ⟨hm, _⟩ | ⟨c, hc, he⟩
    · exact h6 p hm t ht
    · rw [he] at ht ⊢
      rw [hf2 c] at ht
      exact h6 (d, c) (mem_of_lookupA hc) t ht
  · intro q hq
    obtain ⟨c, hc, hin⟩ := h7 q hq
    by_cases hd : q.2 = d
    · refine ⟨f c, ?_, by rw [hf2]; exact hin⟩
      have hc2 : lookupA d s.chans = some c := by
        rw [← hd]
        exact hc
      show lookupA q.2 (mapCtx d f s.chans) = some (f c)
      rw [hd, lookupA_mapCtx_self, hc2]
      rfl
    · exact ⟨c, by rw [show lookupA q.2 (mapCtx d f s.chans) = lookupA q.2 s.chans
        from lookupA_mapCtx_ne f s.chans hd]; exact hc, hin⟩
  · intro q hq
    obtain ⟨c, hc, hin⟩ := h8 q hq
    by_cases hd : q.2 = d
    · refine ⟨f c, ?_, by rw [hf2]; exact hin⟩
      have hc2 : lookupA d s.chans = some c := by
        rw [← hd]
        exact hc
      show lookupA q.2 (mapCtx d f s.chans) = some (f c)
      rw [hd, lookupA_mapCtx_self, hc2]
      rfl
    · exact ⟨c, by rw [show lookupA q.2 (mapCtx d f s.chans) = lookupA q.2 s.chans
        from lookupA_mapCtx_ne f s.chans hd]; exact hc, hin⟩

theorem stateInv_connect (s : NLState) (d : EP) (hSI : stateInv s) :
    stateInv (s.connect d).2 := by
  obtain ⟨h1, h2, h3, h4, h5, h6, h7, h8⟩ := hSI
  unfold NLState.connect
  cases hc : lookupA d s.chans with
  | some c => exact ⟨h1, h2, h3, h4, h5, h6, h7, h8⟩
  | none =>
    refine ⟨?_, h2, h3, h4, ?_, ?_, ?_, ?_⟩
    · exact nodup_updateA d freshCtx h1
    · intro p hp
      rcases mem_updateA.mp hp with he | ⟨hm, _⟩
      · rw [he]
        exact ⟨by simp [freshCtx], by simp [freshCtx], by simp [freshCtx]⟩
      · exact h5 p hm
    · intro p hp t ht
      rcases mem_updateA.mp hp with he | ⟨hm, _⟩
      · rw [he] at ht
        exact absurd ht (by simp [freshCtx])
      · exact h6 p hm t ht
    · intro q hq
      obtain ⟨c, hcl, hin⟩ := h7 q hq
      have hd : ¬ q.2 = d := by
        intro he
        rw [he, hc] at hcl
        exact absurd hcl (by simp)
      exact ⟨c, by rw [lookupA_updateA, if_neg (by simpa using hd)]; exact hcl, hin⟩
    · intro q hq
      obtain ⟨c, hcl, hin⟩ := h8 q hq
      have hd : ¬ q.2 = d := by
        intro he
        rw [he, hc] at hcl
        exact absurd hcl (by simp)
      exact ⟨c, by rw [lookupA_updateA, if_neg (by simpa using hd)]; exact hcl, hin⟩

theorem stateInv_chanConnected (s : NLState) (d : EP) (hSI : stateInv s) :
    stateInv (s.chanConnected d) := by
  unfold NLState.chanConnected
  refine stateInv_mapCtx_chans s d _ hSI (fun c hm => ?_) (fun c => rfl)
  have := hSI.2.2.2.2.1 (d, c) hm
  exact ⟨this.1, this.2.1, this.2.2⟩

theorem stateInv_requestChannel (s : NLState) (d : EP) (hSI : stateInv s) :
    stateInv (s.requestChannel d) := by
  unfold NLState.requestChannel
  cases hc : lookupA d s.chans with
  | none => exact hSI
  | some c0 =>
    refine stateInv_mapCtx_chans s d _ hSI (fun c hm => ?_) (fun c => rfl)
    have hci : ctxInv c := hSI.2.2.2.2.1 (d, c) hm
    obtain ⟨hr, he, hn⟩ := hci
    refine ⟨?_, ?_, hn⟩
    · show c.refs + 1 = (c.txs.length : Int) + (c.ext + 1)
      omega
    · show (0:Int) ≤ c.ext + 1
      omega

theorem stateInv_releaseChannel (s : NLState) (d : EP) (hSI : stateInv s)
    (hv : validOp s (.releaseChannel d)) : stateInv (s.releaseChannel d) := by
  unfold NLState.releaseChannel
  cases hc : lookupA d s.chans with
  | none => exact hSI
  | some c0 =>
    have hext : 0 < c0.ext := by
      have hv2 : (match lookupA d s.chans with
        | some c => 0 < c.ext
        | none => True) := hv
      rw [hc] at hv2
      exact hv2
    refine stateInv_mapCtx_chans s d _ hSI (fun c hm => ?_) (fun c => rfl)
    have hceq : c = c0 := by
      have h0 := lookupA_of_mem_nodup hSI.1 hm
      rw [hc] at h0
      exact (Option.some.inj h0).symm
    subst hceq
    have hci : ctxInv c := hSI.2.2.2.2.1 (d, c) hm
    obtain ⟨hr, he, hn⟩ := hci
    refine ⟨?_, ?_, hn⟩
    · show c.refs - 1 = (c.txs.length : Int) + (c.ext - 1)
      omega
    · show (0:Int) ≤ c.ext - 1
      omega

theorem sendResponse_state (s : NLState) (stxId : TxId) (dest : Option EP)
    (rv : Int) : (s.sendResponse stxId dest rv).2 = s := by
  unfold NLState.sendResponse
  cases h1 : lookupA stxId s.serverTxs with
  | some d => rfl
  | none =>
    cases dest with
    | none => rfl
    | some d =>
      cases h2 : lookupA d s.chans with
      | none => simp [h2]
      | some c => simp [h2]

theorem stateInv_createClientTx (s : NLState) (d : EP) (t : TxId)
    (hSI : stateInv s)
    (hft1 : lookupA t s.clientTxs = none)
    (hft2 : lookupA t s.serverTxs = none) :
    stateInv (s.createClientTx d t) := by
  obtain ⟨h1, h2, h3, h4, h5, h6, h7, h8⟩ := hSI
  unfold NLState.createClientTx
  cases hc : lookupA d s.chans with
  | none => exact ⟨h1, h2, h3, h4, h5, h6, h7, h8⟩
  | some c0 =>
    have hnotin : ∀ (d2 : EP) (c : ChannelContext), (d2, c) ∈ s.chans →
        t ∉ c.txs := by
      intro d2 c hm hmem
      rcases h6 (d2, c) hm t hmem with h | h
      · rw [hft1] at h
        exact absurd h (by simp)
      · rw [hft2] at h
        exact absurd h (by simp)
    refine ⟨?_, ?_, h3, ?_, ?_, ?_, ?_, ?_⟩
    · show (keysOf (mapCtx d _ s.chans)).Nodup
      rw [keysOf_mapCtx]
      exact h1
    · exact nodup_updateA t d h2
    · intro x
      by_cases hx : x = t
      · subst hx
        exact Or.inr hft2
      · rw [lookupA_updateA, if_neg (by simpa using hx)]
        exact h4 x
    · intro p hp
      rcases mem_mapCtx_nodup h1 hp with ⟨hm, _⟩ | ⟨c, hcl, he⟩
      · exact h5 p hm
      · have hmem := mem_of_lookupA hcl
        have hni := hnotin d c hmem
        obtain ⟨hr, hex, hn⟩ : ctxInv c := h5 (d, c) hmem
        have hcf : c.txs.contains t = false := by simpa using hni
        have hfc : ctxInv (requestChannelInternal
            { c with txs := if c.txs.contains t then c.txs else t :: c.txs }) := by
          rw [hcf]
          simp only [Bool.false_eq_true, if_false]
          refine ⟨?_, hex, List.nodup_cons.mpr ⟨hni, hn⟩⟩
          show c.refs + 1 = ((t :: c.txs).length : Int) + c.ext
          rw [List.length_cons]
          omega
        rw [he]
        exact hfc
    · intro p hp t2 ht2
      rcases mem_mapCtx_nodup h1 hp with ⟨hm, _⟩ | ⟨c, hcl, he⟩
      · have ht2t : ¬ t2 = t := by
          intro he2
          exact hnotin p.1 p.2 hm (he2 ▸ ht2)
        rcases h6 p hm t2 ht2 with h | h
        · left
          rw [lookupA_updateA, if_neg (by simpa using ht2t)]
          exact h
        · exact Or.inr h
      · have hmem := mem_of_lookupA hcl
        have hni := hnotin d c hmem
        have hcf : c.txs.contains t = false := by simpa using hni
        rw [he] at ht2
        have htx : (d, requestChannelInternal
            { c with txs := if c.txs.contains t then c.txs else t :: c.txs }).2.txs =
            t :: c.txs := by
          show (if c.txs.contains t then c.txs else t :: c.txs) = t :: c.txs
          rw [hcf]
          simp
        rw [htx] at ht2
        rw [he]
        rcases List.mem_cons.mp ht2 with he2 | hm2
        · subst he2
          left
          rw [lookupA_updateA, if_pos (by simp)]
        · have ht2t : ¬ t2 = t := fun he2 => hni (he2 ▸ hm2)
          rcases h6 (d, c) hmem t2 hm2 with h | h
          · left
            rw [lookupA_updateA, if_neg (by simpa using ht2t)]
            exact h
          · exact Or.inr h
    · intro q hq
      rcases mem_updateA.mp hq with he | ⟨hm, hne⟩
      · subst he
        refine ⟨requestChannelInternal
          { c0 with txs := if c0.txs.contains t then c0.txs else t :: c0.txs },
          ?_, ?_⟩
        · show lookupA d (mapCtx d _ s.chans) = _
          rw [lookupA_mapCtx_self, hc]
          rfl
        · have hcf : c0.txs.contains t = false := by
            simpa using hnotin d c0 (mem_of_lookupA hc)
          show (t, d).1 ∈ (if c0.txs.contains t then c0.txs else t :: c0.txs)
          rw [hcf]
          simp
      · obtain ⟨c, hcl, hin⟩ := h7 q hm
        by_cases hd : q.2 = d
        · have hc2 : lookupA d s.chans = some c := by
            rw [← hd]
            exact hcl
          refine ⟨requestChannelInternal
            { c with txs := if c.txs.contains t then c.txs else t :: c.txs },
            ?_, ?_⟩
          · show lookupA q.2 (mapCtx d _ s.chans) = _
            rw [hd, lookupA_mapCtx_self, hc2]
            rfl
          · have hcf : c.txs.contains t = false := by
              simpa using hnotin d c (mem_of_lookupA hc2)
            show q.1 ∈ (if c.txs.contains t then c.txs else t :: c.txs)
            rw [hcf]
            simp only [Bool.false_eq_true, if_false]
            exact List.mem_cons_of_mem _ hin
        · exact ⟨c, by
            rw [show lookupA q.2 (mapCtx d _ s.chans) = lookupA q.2 s.chans
              from lookupA_mapCtx_ne _ _ hd]
            exact hcl, hin⟩
    · intro q hq
      obtain ⟨c, hcl, hin⟩ := h8 q hq
      by_cases hd : q.2 = d
      · have hc2 : lookupA d s.chans = some c := by
          rw [← hd]
          exact hcl
        refine ⟨requestChannelInternal
          { c with txs := if c.txs.contains t then c.txs else t :: c.txs },
          ?_, ?_⟩
        · show lookupA q.2 (mapCtx d _ s.chans) = _
          rw [hd, lookupA_mapCtx_self, hc2]
          rfl
        · have hcf : c.txs.contains t = false := by
            simpa using hnotin d c (mem_of_lookupA hc2)
          show q.1 ∈ (if c.txs.contains t then c.txs else t :: c.txs)
          rw [hcf]
          simp only [Bool.false_eq_true, if_false]
          exact List.mem_cons_of_mem _ hin
      · exact ⟨c, by
          rw [show lookupA q.2 (mapCtx d _ s.chans) = lookupA q.2 s.chans
            from lookupA_mapCtx_ne _ _ hd]
          exact hcl, hin⟩

theorem stateInv_createServerTx (s : NLState) (d : EP) (t : TxId)
    (hSI : stateInv s)
    (hft1 : lookupA t s.clientTxs = none)
    (hft2 : lookupA t s.serverTxs = none) :
    stateInv (s.createServerTx d t) := by
  obtain ⟨h1, h2, h3, h4, h5, h6, h7, h8⟩ := hSI
  unfold NLState.createServerTx
  cases hc : lookupA d s.chans with
  | none => exact ⟨h1, h2, h3, h4, h5, h6, h7, h8⟩
  | some c0 =>
    have hnotin : ∀ (d2 : EP) (c : ChannelContext), (d2, c) ∈ s.chans →
        t ∉ c.txs := by
      intro d2 c hm hmem
      rcases h6 (d2, c) hm t hmem with h | h
      · rw [hft1] at h
        exact absurd h (by simp)
      · rw [hft2] at h
        exact absurd h (by simp)
    refine ⟨?_, h2, ?_, ?_, ?_, ?_, ?_, ?_⟩
    · show (keysOf (mapCtx d _ s.chans)).Nodup
      rw [keysOf_mapCtx]
      exact h1
    · exact nodup_updateA t d h3
    · intro x
      by_cases hx : x = t
      · subst hx
        exact Or.inl hft1
      · rw [lookupA_updateA, if_neg (by simpa using hx)]
        exact h4 x
    · intro p hp
      rcases mem_mapCtx_nodup h1 hp with ⟨hm, _⟩ | ⟨c, hcl, he⟩
      · exact h5 p hm
      · have hmem := mem_of_lookupA hcl
        have hni := hnotin d c hmem
        obtain ⟨hr, hex, hn⟩ : ctxInv c := h5 (d, c) hmem
        have hcf : c.txs.contains t = false := by simpa using hni
        have hfc : ctxInv (requestChannelInternal
            { c with txs := if c.txs.contains t then c.txs else t :: c.txs }) := by
          rw [hcf]
          simp only [Bool.false_eq_true, if_false]
          refine ⟨?_, hex, List.nodup_cons.mpr ⟨hni, hn⟩⟩
          show c.refs + 1 = ((t :: c.txs).length : Int) + c.ext
          rw [List.length_cons]
          omega
        rw [he]
        exact hfc
    · intro p hp t2 ht2
      rcases mem_mapCtx_nodup h1 hp with ⟨hm, _⟩ | ⟨c, hcl, he⟩
      · have ht2t : ¬ t2 = t := by
          intro he2
          exact hnotin p.1 p.2 hm (he2 ▸ ht2)
        rcases h6 p hm t2 ht2 with h | h
        · exact Or.inl h
        · right
          rw [lookupA_updateA, if_neg (by simpa using ht2t)]
          exact h
      · have hmem := mem_of_lookupA hcl
        have hni := hnotin d c hmem
        have hcf : c.txs.contains t = false := by simpa using hni
        rw [he] at ht2
        have htx : (d, requestChannelInternal
            { c with txs := if c.txs.contains t then c.txs else t :: c.txs }).2.txs =
            t :: c.txs := by
          show (if c.txs.contains t then c.txs else t :: c.txs) = t :: c.txs
          rw [hcf]
          simp
        rw [htx] at ht2
        rw [he]
        rcases List.mem_cons.mp ht2 with he2 | hm2
        · subst he2
          right
          rw [lookupA_updateA, if_pos (by simp)]
        · have ht2t : ¬ t2 = t := fun he2 => hni (he2 ▸ hm2)
          rcases h6 (d, c) hmem t2 hm2 with h | h
          · exact Or.inl h
          · right
            rw [lookupA_updateA, if_neg (by simpa using ht2t)]
            exact h
    · intro q hq
      obtain ⟨c, hcl, hin⟩ := h7 q hq
      by_cases hd : q.2 = d
      · have hc2 : lookupA d s.chans = some c := by
          rw [← hd]
          exact hcl
        refine ⟨requestChannelInternal
          { c with txs := if c.txs.contains t then c.txs else t :: c.txs },
          ?_, ?_⟩
        · show lookupA q.2 (mapCtx d _ s.chans) = _
          rw [hd, lookupA_mapCtx_self, hc2]
          rfl
        · have hcf : c.txs.contains t = false := by
            simpa using hnotin d c (mem_of_lookupA hc2)
          show q.1 ∈ (if c.txs.contains t then c.txs else t :: c.txs)
          rw [hcf]
          simp only [Bool.false_eq_true, if_false]
          exact List.mem_cons_of_mem _ hin
      · exact ⟨c, by
          rw [show lookupA q.2 (mapCtx d _ s.chans) = lookupA q.2 s.chans
            from lookupA_mapCtx_ne _ _ hd]
          exact hcl, hin⟩
    · intro q hq
      rcases mem_updateA.mp hq with he | ⟨hm, hne⟩
      · subst he
        refine ⟨requestChannelInternal
          { c0 with txs := if c0.txs.contains t then c0.txs else t :: c0.txs },
          ?_, ?_⟩
        · show lookupA d (mapCtx d _ s.chans) = _
          rw [lookupA_mapCtx_self, hc]
          rfl
        · have hcf : c0.txs.contains t = false := by
            simpa using hnotin d c0 (mem_of_lookupA hc)
          show (t, d).1 ∈ (if c0.txs.contains t then c0.txs else t :: c0.txs)
          rw [hcf]
          simp
      · obtain ⟨c, hcl, hin⟩ := h8 q hm
        by_cases hd : q.2 = d
        · have hc2 : lookupA d s.chans = some c := by
            rw [← hd]
            exact hcl
          refine ⟨requestChannelInternal
            { c with txs := if c.txs.contains t then c.txs else t :: c.txs },
            ?_, ?_⟩
          · show lookupA q.2 (mapCtx d _ s.chans) = _
            rw [hd, lookupA_mapCtx_self, hc2]
            rfl
          · have hcf : c.txs.contains t = false := by
              simpa using hnotin d c (mem_of_lookupA hc2)
            show q.1 ∈ (if c.txs.contains t then c.txs else t :: c.txs)
            rw [hcf]
            simp only [Bool.false_eq_true, if_false]
            exact List.mem_cons_of_mem _ hin
        · exact ⟨c, by
            rw [show lookupA q.2 (mapCtx d _ s.chans) = lookupA q.2 s.chans
              from lookupA_mapCtx_ne _ _ hd]
            exact hcl, hin⟩

theorem stateInv_sendRequest (s : NLState) (dest : Option EP) (isAck : Bool)
    (t : TxId) (rv : Int) (hSI : stateInv s)
    (hft1 : lookupA t s.clientTxs = none)
    (hft2 : lookupA t s.serverTxs = none) :
    stateInv (s.sendRequest dest isAck t rv).2 := by
  unfold NLState.sendRequest
  cases dest with
  | none => exact hSI
  | some d =>
    show stateInv (match lookupA d s.chans with
      | some c =>
        if !c.connected then (netERR_SOCKET_NOT_CONNECTED, s)
        else if isAck then (rv, s) else (rv, s.createClientTx d t)
      | none =>
        if isAck then (netERR_ABORTED, s)
        else (netERR_IO_PENDING,
          { s with chans := updateA d freshCtx s.chans })).2
    cases hc : lookupA d s.chans with
    | some c =>
      show stateInv (if !c.connected then (netERR_SOCKET_NOT_CONNECTED, s)
        else if isAck then (rv, s) else (rv, s.createClientTx d t)).2
      cases hcon : c.connected with
      | false => simpa using hSI
      | true =>
        cases isAck with
        | true => simpa using hSI
        | false =>
          simp only [Bool.not_true, Bool.false_eq_true, if_false]
          exact stateInv_createClientTx s d t hSI hft1 hft2
    | none =>
      show stateInv (if isAck then (netERR_ABORTED, s)
        else (netERR_IO_PENDING, { s with chans := updateA d freshCtx s.chans })).2
      cases isAck with
      | true => simpa using hSI
      | false =>
        have hcon := stateInv_connect s d hSI
        unfold NLState.connect at hcon
        rw [hc] at hcon
        simpa using hcon

theorem stateInv_termTx (s : NLState) (t : TxId) (hSI : stateInv s) :
    stateInv (s.termTx t) := by
  obtain ⟨h1, h2, h3, h4, h5, h6, h7, h8⟩ := hSI
  cases hcli : lookupA t s.clientTxs with
  | some d =>
    obtain ⟨c, hch, htin⟩ := h7 (t, d) (mem_of_lookupA hcli)
    rw [termTx_eval_cli_chan hcli hch]
    have hsrvnone : lookupA t s.serverTxs = none := by
      rcases h4 t with h | h
      · rw [hcli] at h
        exact absurd h (by simp)
      · exact h
    refine ⟨?_, ?_, h3, ?_, ?_, ?_, ?_, ?_⟩
    · show (keysOf (mapCtx d _ s.chans)).Nodup
      rw [keysOf_mapCtx]
      exact h1
    · exact nodup_eraseA t h2
    · intro x
      rw [lookupA_eraseA]
      by_cases hx : x = t
      · simp [hx]
      · rw [if_neg (by simpa using hx)]
        exact h4 x
    · intro p hp
      rcases mem_mapCtx_nodup h1 hp with ⟨hm, _⟩ | ⟨c2, hcl2, he⟩
      · exact h5 p hm
      · have hceq : c2 = c := Option.some.inj (hcl2.symm.trans hch)
        obtain ⟨hr, hex, hn⟩ : ctxInv c2 := h5 (d, c2) (mem_of_lookupA hcl2)
        have htin2 : t ∈ c2.txs := by
          rw [hceq]
          exact htin
        rw [he]
        refine ⟨?_, hex, hn.filter _⟩
        show c2.refs - 1 = ((c2.txs.filter (· ≠ t)).length : Int) + c2.ext
        have hlen : (c2.txs.filter (· ≠ t)).length + 1 = c2.txs.length :=
          length_filter_ne hn htin2
        omega
    · intro p hp t2 ht2
      rcases mem_mapCtx_nodup h1 hp with ⟨hm, hpd⟩ | ⟨c2, hcl2, he⟩
      · have h6p := h6 p hm t2 ht2
        have ht2t : ¬ t2 = t := by
          intro he2
          subst he2
          rcases h6p with h | h
          · rw [hcli] at h
            exact hpd (Option.some.inj h).symm
          · rw [hsrvnone] at h
            exact absurd h (by simp)
        rcases h6p with h | h
        · left
          rw [lookupA_eraseA, if_neg (by simpa using ht2t)]
          exact h
        · exact Or.inr h
      · rw [he] at ht2
        have ht2' : t2 ∈ c2.txs ∧ t2 ≠ t := by
          have hmf := List.mem_filter.mp ht2
          simpa using hmf
        rw [he]
        rcases h6 (d, c2) (mem_of_lookupA hcl2) t2 ht2'.1 with h | h
        · left
          rw [lookupA_eraseA, if_neg (by simpa using ht2'.2)]
          exact h
        · exact Or.inr h
    · intro q hq
      obtain ⟨hm, hqt⟩ := mem_eraseA.mp hq
      obtain ⟨c2, hcl2, hin⟩ := h7 q hm
      by_cases hd : q.2 = d
      · have hc2 : lookupA d s.chans = some c2 := by
          rw [← hd]
          exact hcl2
        refine ⟨releaseChannelInternal { c2 with txs := c2.txs.filter (· ≠ t) },
          ?_, ?_⟩
        · show lookupA q.2 (mapCtx d _ s.chans) = _
          rw [hd, lookupA_mapCtx_self, hc2]
          rfl
        · show q.1 ∈ c2.txs.filter (· ≠ t)
          exact List.mem_filter.mpr ⟨hin, by simpa using hqt⟩
      · exact ⟨c2, by
          rw [show lookupA q.2 (mapCtx d _ s.chans) = lookupA q.2 s.chans
            from lookupA_mapCtx_ne _ _ hd]
          exact hcl2, hin⟩
    · intro q hq
      obtain ⟨c2, hcl2, hin⟩ := h8 q hq
      have hqt : ¬ q.1 = t := by
        intro he2
        have hlq := lookupA_of_mem_nodup h3 hq
        rw [he2, hsrvnone] at hlq
        exact absurd hlq (by simp)
      by_cases hd : q.2 = d
      · have hc2 : lookupA d s.chans = some c2 := by
          rw [← hd]
          exact hcl2
        refine ⟨releaseChannelInternal { c2 with txs := c2.txs.filter (· ≠ t) },
          ?_, ?_⟩
        · show lookupA q.2 (mapCtx d _ s.chans) = _
          rw [hd, lookupA_mapCtx_self, hc2]
          rfl
        · show q.1 ∈ c2.txs.filter (· ≠ t)
          exact List.mem_filter.mpr ⟨hin, by simpa using hqt⟩
      · exact ⟨c2, by
          rw [show lookupA q.2 (mapCtx d _ s.chans) = lookupA q.2 s.chans
            from lookupA_mapCtx_ne _ _ hd]
          exact hcl2, hin⟩
  | none =>
    cases hsrv : lookupA t s.serverTxs with
    | none =>
      rw [termTx_eval_none hcli hsrv]
      exact ⟨h1, h2, h3, h4, h5, h6, h7, h8⟩
    | some d =>
      obtain ⟨c, hch, htin⟩ := h8 (t, d) (mem_of_lookupA hsrv)
      rw [termTx_eval_srv_chan hcli hsrv hch]
      refine ⟨?_, h2, ?_, ?_, ?_, ?_, ?_, ?_⟩
      · show (keysOf (mapCtx d _ s.chans)).Nodup
        rw [keysOf_mapCtx]
        exact h1
      · exact nodup_eraseA t h3
      · intro x
        rw [lookupA_eraseA]
        by_cases hx : x = t
        · simp [hx, hcli, hx ▸ hcli]
        · rw [if_neg (by simpa using hx)]
          exact h4 x
      · intro p hp
        rcases mem_mapCtx_nodup h1 hp with ⟨hm, _⟩ | ⟨c2, hcl2, he⟩
        · exact h5 p hm
        · have hceq : c2 = c := Option.some.inj (hcl2.symm.trans hch)
          obtain ⟨hr, hex, hn⟩ : ctxInv c2 := h5 (d, c2) (mem_of_lookupA hcl2)
          have htin2 : t ∈ c2.txs := by
            rw [hceq]
            exact htin
          rw [he]
          refine ⟨?_, hex, hn.filter _⟩
          show c2.refs - 1 = ((c2.txs.filter (· ≠ t)).length : Int) + c2.ext
          have hlen : (c2.txs.filter (· ≠ t)).length + 1 = c2.txs.length :=
            length_filter_ne hn htin2
          omega
      · intro p hp t2 ht2
        rcases mem_mapCtx_nodup h1 hp with ⟨hm, hpd⟩ | ⟨c2, hcl2, he⟩
        · have h6p := h6 p hm t2 ht2
          have ht2t : ¬ t2 = t := by
            intro he2
            subst he2
            rcases h6p with h | h
            · rw [hcli] at h
              exact absurd h (by simp)
            · rw [hsrv] at h
              exact hpd (Option.some.inj h).symm
          rcases h6p with h | h
          · exact Or.inl h
          · right
            rw [lookupA_eraseA, if_neg (by simpa using ht2t)]
            exact h
        · rw [he] at ht2
          have ht2' : t2 ∈ c2.txs ∧ t2 ≠ t := by
            have hmf := List.mem_filter.mp ht2
            simpa using hmf
          rw [he]
          rcases h6 (d, c2) (mem_of_lookupA hcl2) t2 ht2'.1 with h | h
          · exact Or.inl h
          · right
            rw [lookupA_eraseA, if_neg (by simpa using ht2'.2)]
            exact h
      · intro q hq
        obtain ⟨c2, hcl2, hin⟩ := h7 q hq
        have hqt : ¬ q.1 = t := by
          intro he2
          have hlq := lookupA_of_mem_nodup h2 hq
          rw [he2, hcli] at hlq
          exact absurd hlq (by simp)
        by_cases hd : q.2 = d
        · have hc2 : lookupA d s.chans = some c2 := by
            rw [← hd]
            exact hcl2
          refine ⟨releaseChannelInternal { c2 with txs := c2.txs.filter (· ≠ t) },
            ?_, ?_⟩
          · show lookupA q.2 (mapCtx d _ s.chans) = _
            rw [hd, lookupA_mapCtx_self, hc2]
            rfl
          · show q.1 ∈ c2.txs.filter (· ≠ t)
            exact List.mem_filter.mpr ⟨hin, by simpa using hqt⟩
        · exact ⟨c2, by
            rw [show lookupA q.2 (mapCtx d _ s.chans) = lookupA q.2 s.chans
              from lookupA_mapCtx_ne _ _ hd]
            exact hcl2, hin⟩
      · intro q hq
        obtain ⟨hm, hqt⟩ := mem_eraseA.mp hq
        obtain ⟨c2, hcl2, hin⟩ := h8 q hm
        by_cases hd : q.2 = d
        · have hc2 : lookupA d s.chans = some c2 := by
            rw [← hd]
            exact hcl2
          refine ⟨releaseChannelInternal { c2 with txs := c2.txs.filter (· ≠ t) },
            ?_, ?_⟩
          · show lookupA q.2 (mapCtx d _ s.chans) = _
            rw [hd, lookupA_mapCtx_self, hc2]
            rfl
          · show q.1 ∈ c2.txs.filter (· ≠ t)
            exact List.mem_filter.mpr ⟨hin, by simpa using hqt⟩
        · exact ⟨c2, by
            rw [show lookupA q.2 (mapCtx d _ s.chans) = lookupA q.2 s.chans
              from lookupA_mapCtx_ne _ _ hd]
            exact hcl2, hin⟩

theorem foldl_termTx_eval (ts : List TxId) :
    ∀ (s : NLState) (d : EP),
    lookupA d s.chans = none →
    (∀ x ∈ ts, (lookupA x s.clientTxs = some d ∧ lookupA x s.serverTxs = none) ∨
      (lookupA x s.clientTxs = none ∧ lookupA x s.serverTxs = some d)) →
    ts.Nodup →
    List.foldl NLState.termTx s ts =
      { s with clientTxs := eraseList ts s.clientTxs,
               serverTxs := eraseList ts s.serverTxs } := by
  induction ts with
  | nil =>
    intro s d h1 h2 h3
    rfl
  | cons t ts2 ih =>
    intro s d h1 h2 h3
    have hnt := (List.nodup_cons.mp h3).1
    have hnd2 := (List.nodup_cons.mp h3).2
    rw [List.foldl_cons]
    rcases h2 t (List.mem_cons_self _ _) with ⟨hc1, hc2⟩ | ⟨hc1, hc2⟩
    · have hhyp : ∀ x ∈ ts2,
          (lookupA x (eraseA t s.clientTxs) = some d ∧
            lookupA x s.serverTxs = none) ∨
          (lookupA x (eraseA t s.clientTxs) = none ∧
            lookupA x s.serverTxs = some d) := by
        intro x hx
        have hxt : ¬ x = t := fun he => hnt (he ▸ hx)
        rcases h2 x (List.mem_cons_of_mem _ hx) with ⟨ha, hb⟩ | ⟨ha, hb⟩
        · left
          refine ⟨?_, hb⟩
          rw [lookupA_eraseA, if_neg (by simpa using hxt)]
          exact ha
        · right
          refine ⟨?_, hb⟩
          rw [lookupA_eraseA, if_neg (by simpa using hxt)]
          exact ha
      have hrec := ih { s with clientTxs := eraseA t s.clientTxs } d h1 hhyp hnd2
      rw [termTx_eval_cli_nochan hc1 h1, hrec]
      have hsrv : eraseList (t :: ts2) s.serverTxs = eraseList ts2 s.serverTxs := by
        show eraseList ts2 (eraseA t s.serverTxs) = eraseList ts2 s.serverTxs
        rw [eraseA_of_lookup_none hc2]
      rw [hsrv]
      rfl
    · have hhyp : ∀ x ∈ ts2,
          (lookupA x s.clientTxs = some d ∧
            lookupA x (eraseA t s.serverTxs) = none) ∨
          (lookupA x s.clientTxs = none ∧
            lookupA x (eraseA t s.serverTxs) = some d) := by
        intro x hx
        have hxt : ¬ x = t := fun he => hnt (he ▸ hx)
        rcases h2 x (List.mem_cons_of_mem _ hx) with ⟨ha, hb⟩ | ⟨ha, hb⟩
        · left
          refine ⟨ha, ?_⟩
          rw [lookupA_eraseA, if_neg (by simpa using hxt)]
          exact hb
        · right
          refine ⟨ha, ?_⟩
          rw [lookupA_eraseA, if_neg (by simpa using hxt)]
          exact hb
      have hrec := ih { s with serverTxs := eraseA t s.serverTxs } d h1 hhyp hnd2
      rw [termTx_eval_srv_nochan hc1 hc2 h1, hrec]
      have hcli : eraseList (t :: ts2) s.clientTxs = eraseList ts2 s.clientTxs := by
        show eraseList ts2 (eraseA t s.clientTxs) = eraseList ts2 s.clientTxs
        rw [eraseA_of_lookup_none hc1]
      rw [hcli]
      rfl

theorem stateInv_destroyCtx (s : NLState) (d : EP) (hSI : stateInv s) :
    stateInv (s.destroyCtx d) := by
  obtain ⟨h1, h2, h3, h4, h5, h6, h7, h8⟩ := hSI
  unfold NLState.destroyCtx
  cases hc : lookupA d s.chans with
  | none => exact ⟨h1, h2, h3, h4, h5, h6, h7, h8⟩
  | some c =>
    have hmem := mem_of_lookupA hc
    obtain ⟨hr, hex, hn⟩ : ctxInv c := h5 (d, c) hmem
    have herase : lookupA d (eraseA d s.chans) = none := by
      rw [lookupA_eraseA]
      simp
    have hops : ∀ x ∈ c.txs,
        (lookupA x s.clientTxs = some d ∧ lookupA x s.serverTxs = none) ∨
        (lookupA x s.clientTxs = none ∧ lookupA x s.serverTxs = some d) := by
      intro x hx
      rcases h6 (d, c) hmem x hx with h | h
      · left
        refine ⟨h, ?_⟩
        rcases h4 x with h9 | h9
        · rw [h9] at h
          exact absurd h (by simp)
        · exact h9
      · right
        refine ⟨?_, h⟩
        rcases h4 x with h9 | h9
        · exact h9
        · rw [h9] at h
          exact absurd h (by simp)
    show stateInv (List.foldl NLState.termTx
      { s with chans := eraseA d s.chans } c.txs)
    rw [foldl_termTx_eval c.txs { s with chans := eraseA d s.chans } d herase
      hops hn]
    refine ⟨?_, ?_, ?_, ?_, ?_, ?_, ?_, ?_⟩
    · exact nodup_eraseA d h1
    · exact nodup_eraseList c.txs h2
    · exact nodup_eraseList c.txs h3
    · intro x
      simp only [lookupA_eraseList]
      cases hm : c.txs.contains x with
      | true => simp
      | false =>
        simp only [Bool.false_eq_true, if_false]
        exact h4 x
    · intro p hp
      exact h5 p (mem_eraseA.mp hp).1
    · intro p hp t2 ht2
      obtain ⟨hpm, hpd⟩ := mem_eraseA.mp hp
      have h6p := h6 p hpm t2 ht2
      have ht2c : ¬ t2 ∈ c.txs := by
        intro hin
        rcases hops t2 hin with ⟨ha, hb⟩ | ⟨ha, hb⟩
        · rcases h6p with h | h
          · rw [ha] at h
            exact hpd (Option.some.inj h).symm
          · rw [hb] at h
            exact absurd h (by simp)
        · rcases h6p with h | h
          · rw [ha] at h
            exact absurd h (by simp)
          · rw [hb] at h
            exact hpd (Option.some.inj h).symm
      have hcont : c.txs.contains t2 = false := by simpa using ht2c
      simp only [lookupA_eraseList, hcont, Bool.false_eq_true, if_false]
      exact h6p
    · intro q hq
      obtain ⟨hqm, hqts⟩ := (mem_eraseList c.txs s.clientTxs).mp hq
      obtain ⟨c2, hcl2, hin⟩ := h7 q hqm
      have hqd : ¬ q.2 = d := by
        intro he
        have hc2d : lookupA d s.chans = some c2 := by
          rw [← he]
          exact hcl2
        have hceq : c2 = c := Option.some.inj (hc2d.symm.trans hc)
        exact hqts (hceq ▸ hin)
      refine ⟨c2, ?_, hin⟩
      show lookupA q.2 (eraseA d s.chans) = some c2
      rw [lookupA_eraseA, if_neg (by simpa using hqd)]
      exact hcl2
    · intro q hq
      obtain ⟨hqm, hqts⟩ := (mem_eraseList c.txs s.serverTxs).mp hq
      obtain ⟨c2, hcl2, hin⟩ := h8 q hqm
      have hqd : ¬ q.2 = d := by
        intro he
        have hc2d : lookupA d s.chans = some c2 := by
          rw [← he]
          exact hcl2
        have hceq : c2 = c := Option.some.inj (hc2d.symm.trans hc)
        exact hqts (hceq ▸ hin)
      refine ⟨c2, ?_, hin⟩
      show lookupA q.2 (eraseA d s.chans) = some c2
      rw [lookupA_eraseA, if_neg (by simpa using hqd)]
      exact hcl2

theorem stateInv_idleTimeout (s : NLState) (d : EP) (hSI : stateInv s) :
    stateInv (s.idleTimeout d) := by
  unfold NLState.idleTimeout
  cases hc : lookupA d s.chans with
  | none => exact hSI
  | some c =>
    show stateInv (if c.timerOn then s.destroyCtx d else s)
    cases hct : c.timerOn with
    | false => simpa using hSI
    | true => simpa using stateInv_destroyCtx s d hSI

theorem stateInv_step (s : NLState) (op : NLOp) (hSI : stateInv s)
    (hv : validOp s op) : stateInv (s.step op) := by
  cases op with
  | connect d => exact stateInv_connect s d hSI
  | chanConnected d => exact stateInv_chanConnected s d hSI
  | requestChannel d => exact stateInv_requestChannel s d hSI
  | releaseChannel d => exact stateInv_releaseChannel s d hSI hv
  | sendRequest dest isAck t rv =>
    exact stateInv_sendRequest s dest isAck t rv hSI hv.1 hv.2
  | sendResponse stx dest rv =>
    show stateInv (s.sendResponse stx dest rv).2
    rw [sendResponse_state]
    exact hSI
  | createServerTx d t => exact stateInv_createServerTx s d t hSI hv.1 hv.2
  | termTx t => exact stateInv_termTx s t hSI
  | channelClosed d => exact stateInv_destroyCtx s d hSI
  | idleTimeout d => exact stateInv_idleTimeout s d hSI

theorem stateInv_run (ops : List NLOp) :
    ∀ s : NLState, stateInv s → validTrace s ops → stateInv (s.run ops) := by
  induction ops with
  | nil =>
    intro s h _
    exact h
  | cons op rest ih =>
    intro s h hv
    exact ih (s.step op) (stateInv_step s op h hv.1) hv.2

theorem stateInv_empty : stateInv NLState.empty := by
  refine ⟨?_, ?_, ?_, ?_, ?_, ?_, ?_, ?_⟩ <;>
    simp [NLState.empty, keysOf, lookupA]

/-- Claim C7, amended.  Along every trace of public operations that is
*valid* — each transaction is created with a globally fresh id and each
external `ReleaseChannel` is matched by an outstanding `RequestChannel`
hold — every channel context of the reachable state has a non-negative
reference count equal to the number of live transactions registered with
it plus the outstanding external holds.  The validity proviso is
necessary: the counterexample drives a context's count to `-1` with a
single unmatched `ReleaseChannel`, because `ReleaseChannelInternal`
decrements without any guard. -/
theorem claim_C7_amended (ops : List NLOp)
    (hv : validTrace NLState.empty ops) :
    ∀ p ∈ (NLState.empty.run ops).chans,
      0 ≤ p.2.refs ∧ p.2.refs = p.2.txs.length + p.2.ext := by
  have hSI := stateInv_run ops NLState.empty stateInv_empty hv
  intro p hp
  obtain ⟨hr, hex, _⟩ : ctxInv p.2 := hSI.2.2.2.2.1 p hp
  refine ⟨?_, hr⟩
  have hlen : (0:Int) ≤ p.2.txs.length := by positivity
  omega

/-- Witness for the amended C7: the surviving context of a concrete valid
trace has a balanced, non-negative reference count. -/
theorem claim_C7_amended_witness :
    0 ≤ ((NLState.empty.run c7ops).chans.headD (0, freshCtx)).2.refs ∧
    ((NLState.empty.run c7ops).chans.headD (0, freshCtx)).2.refs =
      ((NLState.empty.run c7ops).chans.headD (0, freshCtx)).2.txs.length +
        ((NLState.empty.run c7ops).chans.headD (0, freshCtx)).2.ext :=
  claim_C7_amended c7ops
    ⟨trivial, trivial, trivial, ⟨rfl, rfl⟩, trivial, trivial,
      (show (0:Int) < 1 by decide), trivial⟩
    ((NLState.empty.run c7ops).chans.headD (0, freshCtx))
    (by decide)

end Sippet
